import Mathlib

/-!  Verification of the SPS Battleships runner: a shallow embedding of
`battle.py` (ship-instance extraction, attack resolution, battle loop) and of
the example bot's `board_setup.py` and `strategy.py`, together with proofs
about them.

Modelling conventions:
* Python coordinates `(x, y)` are pairs of integers (`Cell`); boards are lists
  of rows, so `board[y][x]` becomes `cellAt b (x, y)`.
* Python `set`s of coordinates are `Finset Cell`; dict values are functions.
* Python `float` probabilities are `ℚ`: every operation the strategy performs
  (seed `1.0`, `*= 2.0`, `= 0.0`, comparisons) is exact in binary floating
  point in the reachable range, so `ℚ` is a faithful model.
* Randomness (`random.shuffle`, `random.choice`) is modelled by oracle
  parameters; theorems quantify over all oracles, which in particular covers
  every real execution (a shuffled list is one possible oracle value).
* The unbounded `while` loops / recursion of the source are modelled with
  explicit fuel; a `none` result means the fuel budget ran out and is never a
  value the Python code returns.
-/

namespace Battleships

/-- A board coordinate `(x, y)`, exactly as the Python tuples. -/
abbrev Cell := ℤ × ℤ

/-- The in-bounds test `0 <= x < cols and 0 <= y < rows` used throughout the
source (e.g. `battle.py` line 65, `board_setup.py` line 179,
`strategy.py` line 101). -/
def inGrid (rows cols : ℕ) (p : Cell) : Prop :=
  0 ≤ p.1 ∧ p.1 < (cols : ℤ) ∧ 0 ≤ p.2 ∧ p.2 < (rows : ℤ)

instance (rows cols : ℕ) (p : Cell) : Decidable (inGrid rows cols p) := by
  unfold inGrid; infer_instance

/-- Orthogonal adjacency: the two cells differ by one of the four unit
offsets used everywhere in the source. -/
def adjacent (p q : Cell) : Prop :=
  (q.1 - p.1, q.2 - p.2) ∈ ([(1, 0), (-1, 0), (0, 1), (0, -1)] : List Cell)

instance (p q : Cell) : Decidable (adjacent p q) := by
  unfold adjacent; infer_instance

lemma adjacent_symm {p q : Cell} (h : adjacent p q) : adjacent q p := by
  rcases p with ⟨a, b⟩; rcases q with ⟨c, d⟩
  simp only [adjacent, List.mem_cons, List.mem_singleton, Prod.mk.injEq,
    List.not_mem_nil, or_false] at h ⊢
  omega

lemma adjacent_ne {p q : Cell} (h : adjacent p q) : p ≠ q := by
  rcases p with ⟨a, b⟩; rcases q with ⟨c, d⟩
  simp only [adjacent, List.mem_cons, List.mem_singleton, Prod.mk.injEq,
    List.not_mem_nil, or_false, ne_eq] at h ⊢
  omega

/-- One row of the row-major enumeration `for x in range(cols)`. -/
def rowCells (cols : ℕ) (y : ℤ) : List Cell :=
  (List.range cols).map fun (x : ℕ) => ((x : ℤ), y)

/-- Row-major enumeration of the grid, `for y in range(rows): for x in
range(cols)` as in `get_ship_instances` and `Strategy.get_next_attack`. -/
def rowMajor (rows cols : ℕ) : List Cell :=
  ((List.range rows).map fun (y : ℕ) => rowCells cols (y : ℤ)).flatten

lemma mem_rowCells {cols : ℕ} {y : ℤ} {p : Cell} :
    p ∈ rowCells cols y ↔ 0 ≤ p.1 ∧ p.1 < (cols : ℤ) ∧ p.2 = y := by
  rcases p with ⟨a, b⟩
  unfold rowCells
  rw [List.mem_map]
  constructor
  · rintro ⟨x, hx, hEq⟩
    rw [List.mem_range] at hx
    rw [Prod.mk.injEq] at hEq
    obtain ⟨h1, h2⟩ := hEq
    subst h2
    refine ⟨?_, ?_, rfl⟩ <;> omega
  · rintro ⟨h0, hlt, rfl⟩
    refine ⟨a.toNat, ?_, ?_⟩
    · rw [List.mem_range]; omega
    · rw [Prod.mk.injEq]; exact ⟨by omega, rfl⟩

lemma mem_rowMajor {rows cols : ℕ} {p : Cell} :
    p ∈ rowMajor rows cols ↔ inGrid rows cols p := by
  rcases p with ⟨a, b⟩
  unfold rowMajor inGrid
  rw [List.mem_flatten]
  constructor
  · rintro ⟨l, hl, hp⟩
    rw [List.mem_map] at hl
    obtain ⟨y, hy, rfl⟩ := hl
    rw [List.mem_range] at hy
    rcases mem_rowCells.1 hp with ⟨h0, hlt, rfl⟩
    refine ⟨h0, hlt, ?_, ?_⟩ <;> omega
  · rintro ⟨h0, hlt, h0', hlt'⟩
    refine ⟨rowCells cols b, ?_, mem_rowCells.2 ⟨h0, hlt, rfl⟩⟩
    rw [List.mem_map]
    refine ⟨b.toNat, ?_, ?_⟩
    · rw [List.mem_range]; omega
    · congr 1; omega

lemma nodup_rowMajor {rows cols : ℕ} : (rowMajor rows cols).Nodup := by
  unfold rowMajor
  apply List.nodup_flatten.2
  constructor
  · intro l hl
    rw [List.mem_map] at hl
    rcases hl with ⟨y, _, rfl⟩
    refine List.Nodup.map ?_ (List.nodup_range _)
    intro i j h
    rw [Prod.mk.injEq] at h
    have := h.1
    omega
  · refine List.Pairwise.map _ ?_ ((List.nodup_range rows).pairwise_of_forall_ne
      (fun a _ b _ h => h))
    intro y y' h
    simp only [List.Disjoint]
    intro p hp hp'
    rcases mem_rowCells.1 hp with ⟨_, _, h1⟩
    rcases mem_rowCells.1 hp' with ⟨_, _, h2⟩
    apply h
    omega

/-- A board, as in Python: a list of rows of integer tags,
`0` = water, `1..7` = ship id. -/
abbrev Board := List (List ℕ)

/-- Reading `grid[y][x]`; all reads in the source are guarded by the
in-bounds test, so the default value `d` outside the lists is never
observed by in-range code paths. -/
def read2D {α : Type} (d : α) (g : List (List α)) (p : Cell) : α :=
  if 0 ≤ p.1 ∧ 0 ≤ p.2 then (g.getD p.2.toNat []).getD p.1.toNat d else d

/-- Reading `board[y][x]` of a game board (water `0` as default). -/
def cellAt (b : Board) (p : Cell) : ℕ := read2D 0 b p

/-- Writing `grid[y][x] = v` (a guarded functional update). -/
def set2D {α : Type} (g : List (List α)) (p : Cell) (v : α) : List (List α) :=
  if 0 ≤ p.1 ∧ 0 ≤ p.2 then
    g.set p.2.toNat ((g.getD p.2.toNat []).set p.1.toNat v)
  else g

lemma listGetD_lt {α : Type} (l : List α) (n : ℕ) (d : α) (h : n < l.length) :
    l.getD n d = l[n] := by
  rw [List.getD_eq_getElem?_getD, List.getElem?_eq_getElem h]; rfl

lemma listGetD_ge {α : Type} (l : List α) (n : ℕ) (d : α) (h : l.length ≤ n) :
    l.getD n d = d := by
  rw [List.getD_eq_getElem?_getD, List.getElem?_eq_none h]; rfl

lemma listGetD_set {α : Type} (l : List α) (i j : ℕ) (a d : α) :
    (l.set i a).getD j d = if i = j ∧ j < l.length then a else l.getD j d := by
  induction l generalizing i j with
  | nil => simp [List.set]
  | cons hd tl ih =>
    cases i with
    | zero =>
      cases j with
      | zero => simp
      | succ j => simp [List.getD]
    | succ i =>
      cases j with
      | zero => simp [List.getD]
      | succ j =>
        simp only [List.set, List.getD_cons_succ, List.length_cons, ih]
        by_cases hc : i = j ∧ j < tl.length
        · rw [if_pos hc, if_pos (by omega)]
        · rw [if_neg hc, if_neg (by omega)]

/-- A rectangular `rows × cols` 2-D list, the shape every grid in the source
actually has. -/
def Rect {α : Type} (g : List (List α)) (rows cols : ℕ) : Prop :=
  g.length = rows ∧ ∀ r ∈ g, r.length = cols

instance {α : Type} (g : List (List α)) (rows cols : ℕ) :
    Decidable (Rect g rows cols) := by
  unfold Rect; infer_instance

lemma rect_set2D {α : Type} {g : List (List α)} {rows cols : ℕ} (h : Rect g rows cols)
    (p : Cell) (v : α) : Rect (set2D g p v) rows cols := by
  unfold set2D
  split
  · rcases Nat.lt_or_ge p.2.toNat g.length with hlt | hge
    · refine ⟨by simpa using h.1, ?_⟩
      intro r hr
      rcases List.mem_or_eq_of_mem_set hr with h' | rfl
      · exact h.2 r h'
      · rw [List.length_set, listGetD_lt _ _ _ hlt]
        exact h.2 _ (g.getElem_mem hlt)
    · rw [List.set_eq_of_length_le hge]
      exact h
  · exact h

/-- `read2D` after `set2D`, on a rectangular grid at an in-bounds cell. -/
lemma read2D_set2D {α : Type} {g : List (List α)} {rows cols : ℕ}
    (h : Rect g rows cols) {p : Cell} (hp : inGrid rows cols p) (v d : α) (q : Cell) :
    read2D d (set2D g p v) q = if q = p then v else read2D d g q := by
  obtain ⟨hb, hrow⟩ := h
  obtain ⟨hx0, hxlt, hy0, hylt⟩ := hp
  have hylen : p.2.toNat < g.length := by omega
  have hrowlen : (g.getD p.2.toNat []).length = cols := by
    rw [listGetD_lt _ _ _ hylen]
    exact hrow _ (g.getElem_mem hylen)
  unfold set2D
  rw [if_pos (show 0 ≤ p.1 ∧ 0 ≤ p.2 from ⟨hx0, hy0⟩)]
  unfold read2D
  by_cases hq : 0 ≤ q.1 ∧ 0 ≤ q.2
  · rw [if_pos hq, listGetD_set]
    by_cases hyy : p.2.toNat = q.2.toNat ∧ q.2.toNat < g.length
    · rw [if_pos hyy, listGetD_set, hrowlen]
      by_cases hxx : p.1.toNat = q.1.toNat ∧ q.1.toNat < cols
      · rw [if_pos hxx, if_pos]
        rcases p with ⟨px, py⟩; rcases q with ⟨qx, qy⟩
        rw [Prod.mk.injEq]
        simp only at hx0 hxlt hy0 hylt hq hyy hxx
        omega
      · rw [if_neg hxx, if_neg]
        · rw [if_pos hq, hyy.1]
        · rintro rfl
          exact hxx ⟨rfl, by omega⟩
    · rw [if_neg hyy, if_neg]
      · rw [if_pos hq]
      · rintro rfl
        exact hyy ⟨rfl, by omega⟩
  · rw [if_neg hq, if_neg, if_neg hq]
    rintro rfl
    exact hq ⟨hx0, hy0⟩

lemma read2D_out {α : Type} {g : List (List α)} {rows cols : ℕ}
    (h : Rect g rows cols) {p : Cell} (hp : ¬ inGrid rows cols p) (d : α) :
    read2D d g p = d := by
  obtain ⟨hb, hrow⟩ := h
  unfold inGrid at hp
  unfold read2D
  split
  · rename_i hpos
    obtain ⟨hx0, hy0⟩ := hpos
    rcases Nat.lt_or_ge p.2.toNat g.length with hy | hy
    · rw [listGetD_lt _ _ _ hy]
      have hlen : g[p.2.toNat].length = cols := hrow _ (g.getElem_mem hy)
      apply listGetD_ge
      rw [hlen]
      omega
    · rw [listGetD_ge _ _ _ hy]
      exact listGetD_ge _ _ _ (by simp)
  · rfl

lemma cellAt_set2D {b : Board} {rows cols : ℕ} (h : Rect b rows cols)
    {p : Cell} (hp : inGrid rows cols p) (v : ℕ) (q : Cell) :
    cellAt (set2D b p v) q = if q = p then v else cellAt b q :=
  read2D_set2D h hp v 0 q

lemma cellAt_out {b : Board} {rows cols : ℕ} (h : Rect b rows cols) {p : Cell}
    (hp : ¬ inGrid rows cols p) : cellAt b p = 0 :=
  read2D_out h hp 0

/-- A ship instance as built by `get_ship_instances`: the dict
`{"ship_id": ..., "coords": ..., "hits": ...}`. -/
structure ShipInstance where
  shipId : ℕ
  coords : Finset Cell
  hits : Finset Cell
deriving DecidableEq

/-- `process_attack` from `battle.py` (lines 71–86): scan the instances in
order, and on the first instance whose `coords` contain `(x, y)` add the cell
to its `hits` and report `(hit, sunk)`; otherwise report a miss. -/
def processAttack (x y : ℤ) : List ShipInstance → List ShipInstance × Bool × Bool
  | [] => ([], false, false)
  | s :: rest =>
    if (x, y) ∈ s.coords then
      ({ s with hits := insert (x, y) s.hits } :: rest, true,
        decide (insert (x, y) s.hits = s.coords))
    else
      let r := processAttack x y rest
      (s :: r.1, r.2.1, r.2.2)

lemma processAttack_cons_hit {x y : ℤ} {s : ShipInstance} (l : List ShipInstance)
    (h : (x, y) ∈ s.coords) :
    processAttack x y (s :: l) =
      ({ s with hits := insert (x, y) s.hits } :: l, true,
        decide (insert (x, y) s.hits = s.coords)) := by
  simp [processAttack, h]

lemma processAttack_cons_miss {x y : ℤ} {s : ShipInstance} (l : List ShipInstance)
    (h : (x, y) ∉ s.coords) :
    processAttack x y (s :: l) =
      (s :: (processAttack x y l).1, (processAttack x y l).2.1,
        (processAttack x y l).2.2) := by
  simp [processAttack, h]

lemma processAttack_hit_iff (x y : ℤ) (l : List ShipInstance) :
    (processAttack x y l).2.1 = true ↔ ∃ s ∈ l, (x, y) ∈ s.coords := by
  induction l with
  | nil => simp [processAttack]
  | cons s rest ih =>
    by_cases h : (x, y) ∈ s.coords
    · rw [processAttack_cons_hit rest h]
      simp [h]
    · rw [processAttack_cons_miss rest h]
      simp only [List.mem_cons, ih]
      constructor
      · rintro ⟨t, ht, hmem⟩; exact ⟨t, Or.inr ht, hmem⟩
      · rintro ⟨t, ht | ht, hmem⟩
        · exact absurd (ht ▸ hmem) h
        · exact ⟨t, ht, hmem⟩

lemma processAttack_miss (x y : ℤ) (l : List ShipInstance)
    (h : ∀ s ∈ l, (x, y) ∉ s.coords) :
    processAttack x y l = (l, false, false) := by
  induction l with
  | nil => rfl
  | cons s rest ih =>
    rw [processAttack_cons_miss rest (h s (List.mem_cons_self _ _)),
      ih (fun t ht => h t (List.mem_cons_of_mem _ ht))]

lemma processAttack_found (x y : ℤ) (l₁ : List ShipInstance) (s : ShipInstance)
    (l₂ : List ShipInstance) (h₁ : ∀ t ∈ l₁, (x, y) ∉ t.coords)
    (hs : (x, y) ∈ s.coords) :
    processAttack x y (l₁ ++ s :: l₂) =
      (l₁ ++ { s with hits := insert (x, y) s.hits } :: l₂, true,
        decide (insert (x, y) s.hits = s.coords)) := by
  induction l₁ with
  | nil =>
    rw [List.nil_append, List.nil_append]
    exact processAttack_cons_hit l₂ hs
  | cons t rest ih =>
    rw [List.cons_append, processAttack_cons_miss _ (h₁ t (List.mem_cons_self _ _)),
      ih (fun u hu => h₁ u (List.mem_cons_of_mem _ hu)), List.cons_append]

/-- **C1.** `process_attack` returns `hit = true` iff `(x, y)` lies in some
instance's `coords`; when no instance contains `(x, y)` it returns
`(false, false)` and leaves every instance untouched; when the cell lies in
an instance (the first such, in list order) that instance's `hits` gain
`(x, y)` and `sunk` is true iff its `hits` set now equals its `coords` set. -/
theorem attack_resolution_correct (x y : ℤ) (l : List ShipInstance) :
    ((processAttack x y l).2.1 = true ↔ ∃ s ∈ l, (x, y) ∈ s.coords) ∧
    ((∀ s ∈ l, (x, y) ∉ s.coords) → processAttack x y l = (l, false, false)) ∧
    (∀ l₁ s l₂, l = l₁ ++ s :: l₂ → (∀ t ∈ l₁, (x, y) ∉ t.coords) →
      (x, y) ∈ s.coords →
      (processAttack x y l).1 = l₁ ++ { s with hits := insert (x, y) s.hits } :: l₂ ∧
      ((processAttack x y l).2.2 = true ↔ insert (x, y) s.hits = s.coords)) := by
  refine ⟨processAttack_hit_iff x y l, processAttack_miss x y l, ?_⟩
  rintro l₁ s l₂ rfl h₁ hs
  rw [processAttack_found x y l₁ s l₂ h₁ hs]
  exact ⟨rfl, by simp⟩

/-- Witness for C1: a synthetic two-cell ship, attacked on its last free
cell, is reported hit and sunk, with the hit recorded. -/
theorem attack_resolution_correct_witness :
    (processAttack 1 0 [⟨1, {(0, 0), (1, 0)}, {(0, 0)}⟩]).1 =
        [⟨1, {(0, 0), (1, 0)}, insert (1, 0) {(0, 0)}⟩] ∧
    (processAttack 1 0 [⟨1, {(0, 0), (1, 0)}, {(0, 0)}⟩]).2.2 = true := by
  have h := attack_resolution_correct 1 0 [⟨1, {(0, 0), (1, 0)}, {(0, 0)}⟩]
  obtain ⟨-, -, h3⟩ := h
  have := h3 [] ⟨1, {(0, 0), (1, 0)}, {(0, 0)}⟩ [] rfl (by simp) (by decide)
  refine ⟨by simpa using this.1, this.2.2 (by decide)⟩

lemma attack_reresolve (x y : ℤ) :
    ∀ l : List ShipInstance,
      List.Pairwise (fun a b => ∀ p ∈ a.coords, p ∉ b.coords) l →
      (∀ s ∈ l, s.hits ⊆ s.coords) →
      (∃ s ∈ l, (x, y) ∈ s.hits) →
      (processAttack x y l).1 = l ∧ (processAttack x y l).2.1 = true ∧
        ((processAttack x y l).2.2 = true →
          ∃ s ∈ l, (x, y) ∈ s.hits ∧ s.hits = s.coords) := by
  intro l
  induction l with
  | nil =>
    intro _ _ hmem
    simp at hmem
  | cons t rest ih =>
    intro hdisj hsub hmem
    obtain ⟨s, hsmem, hshit⟩ := hmem
    have hpair := List.pairwise_cons.1 hdisj
    by_cases hc : (x, y) ∈ t.coords
    · have hxyt : (x, y) ∈ t.hits := by
        rcases List.mem_cons.1 hsmem with rfl | hsr
        · exact hshit
        · exact absurd (hsub s (List.mem_cons_of_mem _ hsr) hshit)
            (hpair.1 s hsr (x, y) hc)
      have hins : insert (x, y) t.hits = t.hits := Finset.insert_eq_self.2 hxyt
      rw [processAttack_cons_hit rest hc]
      refine ⟨by rw [hins], rfl, fun hk => ?_⟩
      rw [hins] at hk
      exact ⟨t, List.mem_cons_self _ _, hxyt, of_decide_eq_true hk⟩
    · have hsr : s ∈ rest := by
        rcases List.mem_cons.1 hsmem with rfl | h
        · exact absurd (hsub s (List.mem_cons_self _ _) hshit) hc
        · exact h
      have hrec := ih hpair.2 (fun u hu => hsub u (List.mem_cons_of_mem _ hu))
        ⟨s, hsr, hshit⟩
      rw [processAttack_cons_miss rest hc]
      refine ⟨by rw [hrec.1], hrec.2.1, fun hk => ?_⟩
      obtain ⟨u, hu, h1, h2⟩ := hrec.2.2 hk
      exact ⟨u, List.mem_cons_of_mem _ hu, h1, h2⟩

/-- **C4.** Re-resolving an attack on a cell already recorded as a hit is
idempotent: for instance lists satisfying the documented `ShipInstance`
invariants (pairwise disjoint `coords`, `hits ⊆ coords`), if `(x, y)` is
already in some instance's `hits` then `process_attack` leaves every
instance (in particular every `hits` set) unchanged, reports a hit, and
reports `sunk = true` only for an instance that was already fully sunk —
it never flips the sunk determination from false to true. -/
theorem attack_idempotent (x y : ℤ) (l : List ShipInstance)
    (hdisj : List.Pairwise (fun a b => ∀ p ∈ a.coords, p ∉ b.coords) l)
    (hsub : ∀ s ∈ l, s.hits ⊆ s.coords)
    (hmem : ∃ s ∈ l, (x, y) ∈ s.hits) :
    (processAttack x y l).1 = l ∧ (processAttack x y l).2.1 = true ∧
      ((processAttack x y l).2.2 = true →
        ∃ s ∈ l, (x, y) ∈ s.hits ∧ s.hits = s.coords) :=
  attack_reresolve x y l hdisj hsub hmem

/-- Witness for C4: re-attacking the already-hit cell `(0, 0)` of a
half-sunk two-cell ship changes nothing and does not report it sunk. -/
theorem attack_idempotent_witness :
    (processAttack 0 0 [⟨1, {(0, 0), (1, 0)}, {(0, 0)}⟩]).1 =
        [⟨1, {(0, 0), (1, 0)}, {(0, 0)}⟩] ∧
    (processAttack 0 0 [⟨1, {(0, 0), (1, 0)}, {(0, 0)}⟩]).2.2 ≠ true := by
  have h := attack_idempotent 0 0 [⟨1, {(0, 0), (1, 0)}, {(0, 0)}⟩]
    (by simp) (by decide) ⟨_, List.mem_cons_self _ _, by decide⟩
  refine ⟨h.1, fun hk => ?_⟩
  obtain ⟨u, hu, -, h2⟩ := h.2.2 hk
  rw [List.mem_singleton] at hu
  subst hu
  exact absurd h2 (by decide)

/-- The failure modes of the modelled code, under the names the spec gives
them (the Python source raises `ValueError` for insufficient space and
`RuntimeError` for an exhausted attack fallback). -/
inductive BattleError where
  | insufficientSpace
  | noAttacksRemaining
deriving DecidableEq

/-- `ship_metadata` of `strategy.py` (line 37): ship id to tile count. -/
def shipMetadata (i : ℕ) : ℕ :=
  if i = 1 then 2 else if i = 2 then 3 else if i = 3 then 4 else if i = 4 then 4
  else if i = 5 then 4 else if i = 6 then 4 else if i = 7 then 6 else 0

/-- The mutable state of `strategy.py`'s `Strategy` (constructor lines
16–51).  `ship_shapes` is constant data never read by the modelled methods
and is omitted. -/
structure Strategy where
  rows : ℕ
  cols : ℕ
  shipsDict : ℕ → ℕ
  attacked : Finset Cell
  enemyBoard : List (List Char)
  probabilityMap : List (List ℚ)
  shipsRemaining : ℕ → ℕ

/-- `Strategy.__init__`: empty attack history, all-`?` enemy board, uniform
probability map of `1.0`, and remaining-ship counts copied from the dict. -/
def mkStrategy (rows cols : ℕ) (shipsDict : ℕ → ℕ) : Strategy where
  rows := rows
  cols := cols
  shipsDict := shipsDict
  attacked := ∅
  enemyBoard := List.replicate rows (List.replicate cols '?')
  probabilityMap := List.replicate rows (List.replicate cols 1)
  shipsRemaining := shipsDict

/-- `self.probability_map[y][x]` (reads are bounds-guarded in the source). -/
def probAt (s : Strategy) (p : Cell) : ℚ := read2D 0 s.probabilityMap p

/-- Python's `%`, which is non-negative for a positive modulus (unlike
`Int.emod` on negative operands). -/
def pymod (a n : ℤ) : ℤ := (a % n + n) % n

/-- The checkerboard key `(x + y) % 2` of `get_next_attack`. -/
def cellParity (p : Cell) : ℤ := pymod (p.1 + p.2) 2

/-- One step of the maximum-probability scan of `get_next_attack`
(lines 63–70): track the running maximum (seeded `-1`) and the list of cells
attaining it, in row-major encounter order. -/
def scanStep (s : Strategy) (st : ℚ × List Cell) (p : Cell) : ℚ × List Cell :=
  if p ∉ s.attacked then
    if probAt s p > st.1 then (probAt s p, [p])
    else if probAt s p = st.1 then (st.1, st.2 ++ [p])
    else st
  else st

/-- `candidates.sort(key=lambda pos: (pos[0] + pos[1]) % 2, reverse=True)`:
a stable descending sort on a 0/1 key, i.e. the parity-1 candidates in
original order followed by the parity-0 ones in original order. -/
def paritySort (l : List Cell) : List Cell :=
  l.filter (fun p => decide (cellParity p = 1)) ++
    l.filter (fun p => ¬ decide (cellParity p = 1))

/-- `Strategy._fallback_attack` (lines 138–143): the first un-attacked cell
in row-major order, else the `RuntimeError` the spec calls
`NoAttacksRemaining`. -/
def fallbackAttack (s : Strategy) : Except BattleError Cell :=
  match (rowMajor s.rows s.cols).find? (fun p => decide (p ∉ s.attacked)) with
  | some p => Except.ok p
  | none => Except.error BattleError.noAttacksRemaining

/-- The tail of `get_next_attack` (lines 72–76): sort the candidates by the
checkerboard key when there is a tie, return the first, and fall back when
there is none. -/
def selectFrom (s : Strategy) (candidates : List Cell) : Except BattleError Cell :=
  match (if candidates.length > 1 then paritySort candidates else candidates) with
  | [] => fallbackAttack s
  | p :: _ => Except.ok p

/-- `Strategy.get_next_attack` (lines 53–76): scan the grid in row-major
order for the maximum-probability un-attacked cells, then select. -/
def getNextAttack (s : Strategy) : Except BattleError Cell :=
  selectFrom s ((rowMajor s.rows s.cols).foldl (scanStep s) (-1, [])).2

/-- The neighbour offsets used by the strategy's flood fills and the hit
boost (`strategy.py` lines 98, 119, 177, and 186). -/
def strategyDirs : List Cell := [(-1, 0), (1, 0), (0, -1), (0, 1)]

/-- One iteration of the neighbour loop of
`Strategy._update_probabilities_on_hit`: if the neighbour `(x, y) + d` is in
bounds and un-attacked, its probability is doubled (`*= 2.0`). -/
def boostStep (x y : ℤ) (st : Strategy) (d : Cell) : Strategy :=
  if inGrid st.rows st.cols (x + d.1, y + d.2) ∧ (x + d.1, y + d.2) ∉ st.attacked then
    { st with probabilityMap := set2D st.probabilityMap (x + d.1, y + d.2) (read2D 0 st.probabilityMap (x + d.1, y + d.2) * 2) }
  else st

/-- `Strategy._update_probabilities_on_hit` (lines 97–103): double the
probability of every in-bounds, un-attacked orthogonal neighbour. -/
def updateProbabilitiesOnHit (x y : ℤ) (s : Strategy) : Strategy :=
  strategyDirs.foldl (boostStep x y) s

/-- The FIFO flood fill of `Strategy._mark_sunk_ship_area` (lines 105–121):
collect the connected `H` cells; neighbours are enqueued unguarded and
bounds-checked when dequeued, exactly as in the source.  The loop is run
with enough fuel for every queue the source can build. -/
def sunkBfs (s : Strategy) : ℕ → List Cell → Finset Cell → List Cell → List Cell
  | 0, _, _, acc => acc
  | _ + 1, [], _, acc => acc
  | fuel + 1, c :: queue, visited, acc =>
    if c ∈ visited then sunkBfs s fuel queue visited acc
    else
      let visited' := insert c visited
      if inGrid s.rows s.cols c ∧ read2D '?' s.enemyBoard c = 'H' then
        sunkBfs s fuel
          (queue ++ (strategyDirs.map fun d => (c.1 + d.1, c.2 + d.2)))
          visited' (acc ++ [c])
      else sunkBfs s fuel queue visited' acc

/-- `range` over integers, for the bounding-box loops of
`_mark_sunk_ship_area`. -/
def intRange (lo hi : ℤ) : List ℤ :=
  (List.range (hi + 1 - lo).toNat).map fun (i : ℕ) => lo + i

/-- `Strategy._mark_sunk_ship_area` (lines 105–136): zero the probability of
every un-attacked cell in the sunk shape's bounding box expanded by one and
clamped to the board. -/
def markSunkShipArea (x y : ℤ) (s : Strategy) : Strategy :=
  let cells := sunkBfs s (5 * (s.rows + 2) * (s.cols + 2) + 1) [(x, y)] ∅ []
  if cells = [] then s
  else
    let xs := cells.map Prod.fst
    let ys := cells.map Prod.snd
    let minX := max 0 (xs.foldl min x - 1)
    let maxX := min ((s.cols : ℤ) - 1) (xs.foldl max x + 1)
    let minY := max 0 (ys.foldl min y - 1)
    let maxY := min ((s.rows : ℤ) - 1) (ys.foldl max y + 1)
    (intRange minY maxY).foldl (fun st yy =>
      (intRange minX maxX).foldl (fun st2 xx =>
        if (xx, yy) ∉ st2.attacked then
          { st2 with probabilityMap := set2D st2.probabilityMap (xx, yy) 0 }
        else st2) st) s

/-- The BFS of `Strategy._detect_ship_size` (lines 163–181): count the
connected `H` cells (here neighbours are bounds-checked before enqueueing,
unlike `_mark_sunk_ship_area`). -/
def detectBfs (s : Strategy) : ℕ → List Cell → Finset Cell → ℕ → ℕ
  | 0, _, _, size => size
  | _ + 1, [], _, size => size
  | fuel + 1, c :: queue, visited, size =>
    if c ∈ visited then detectBfs s fuel queue visited size
    else
      let visited' := insert c visited
      if read2D '?' s.enemyBoard c = 'H' then
        detectBfs s fuel
          (queue ++ ((strategyDirs.map fun d => (c.1 + d.1, c.2 + d.2)).filter
            fun n => decide (inGrid s.rows s.cols n)))
          visited' (size + 1)
      else detectBfs s fuel queue visited' size

/-- The `for ship_id, size in self.ship_metadata.items()` loop of
`_update_ship_count` (insertion order `1..7`), decrementing the first
matching remaining ship. -/
def updateCountGo (s : Strategy) (sz : ℕ) : List ℕ → Strategy
  | [] => s
  | i :: rest =>
    if shipMetadata i = sz ∧ s.shipsRemaining i > 0 then
      { s with shipsRemaining :=
          fun j => if j = i then s.shipsRemaining i - 1 else s.shipsRemaining j }
    else updateCountGo s sz rest

/-- `Strategy._update_ship_count` (lines 155–161). -/
def updateShipCount (x y : ℤ) (s : Strategy) : Strategy :=
  let sz := detectBfs s (5 * (s.rows + 2) * (s.cols + 2) + 1) [(x, y)] ∅ 0
  updateCountGo s sz [1, 2, 3, 4, 5, 6, 7]

/-- `Strategy.register_attack` (lines 78–95).  The write
`enemy_board[y][x] = ...` presupposes an in-bounds coordinate in Python
(negative indices would wrap, too large ones raise); the strategy only ever
registers coordinates it attacked, which are in bounds. -/
def registerAttack (x y : ℤ) (isHit isSunk : Bool) (s : Strategy) : Strategy :=
  let s1 := { s with attacked := insert (x, y) s.attacked,
                     enemyBoard := set2D s.enemyBoard (x, y)
                       (if isHit then 'H' else 'M') }
  if isHit then
    let s2 := updateProbabilitiesOnHit x y s1
    if isSunk then updateShipCount x y (markSunkShipArea x y s2) else s2
  else s1

lemma boostStep_rows (x y : ℤ) (st : Strategy) (d : Cell) :
    (boostStep x y st d).rows = st.rows := by
  unfold boostStep; split <;> rfl

lemma boostStep_cols (x y : ℤ) (st : Strategy) (d : Cell) :
    (boostStep x y st d).cols = st.cols := by
  unfold boostStep; split <;> rfl

lemma boostStep_attacked (x y : ℤ) (st : Strategy) (d : Cell) :
    (boostStep x y st d).attacked = st.attacked := by
  unfold boostStep; split <;> rfl

lemma boostStep_rect (x y : ℤ) (st : Strategy) (d : Cell)
    (h : Rect st.probabilityMap st.rows st.cols) :
    Rect (boostStep x y st d).probabilityMap st.rows st.cols := by
  unfold boostStep
  split
  · exact rect_set2D h _ _
  · exact h

lemma probAt_boostStep (x y : ℤ) (st : Strategy) (d : Cell)
    (h : Rect st.probabilityMap st.rows st.cols) (p : Cell) :
    probAt (boostStep x y st d) p =
      if p = (x + d.1, y + d.2) ∧ inGrid st.rows st.cols p ∧ p ∉ st.attacked
      then probAt st p * 2 else probAt st p := by
  unfold boostStep probAt
  by_cases hc : inGrid st.rows st.cols (x + d.1, y + d.2) ∧
      (x + d.1, y + d.2) ∉ st.attacked
  · rw [if_pos hc]
    show read2D 0 (set2D st.probabilityMap _ _) p = _
    rw [read2D_set2D h hc.1]
    by_cases hpn : p = (x + d.1, y + d.2)
    · rw [if_pos hpn, if_pos ⟨hpn, hpn ▸ hc.1, hpn ▸ hc.2⟩, hpn]
    · rw [if_neg hpn, if_neg (fun hh => hpn hh.1)]
  · rw [if_neg hc, if_neg]
    rintro ⟨rfl, h1, h2⟩
    exact hc ⟨h1, h2⟩

lemma probAt_boostFold (x y : ℤ) :
    ∀ (ds : List Cell) (st : Strategy), ds.Nodup →
      Rect st.probabilityMap st.rows st.cols →
      ∀ p : Cell,
        probAt (ds.foldl (boostStep x y) st) p =
          if (p.1 - x, p.2 - y) ∈ ds ∧ inGrid st.rows st.cols p ∧ p ∉ st.attacked
          then probAt st p * 2 else probAt st p := by
  intro ds
  induction ds with
  | nil =>
    intro st _ _ p
    rw [List.foldl_nil, if_neg]
    rintro ⟨h, -⟩
    exact List.not_mem_nil _ h
  | cons d rest ih =>
    intro st hnd hrect p
    rw [List.foldl_cons]
    have hnd' : rest.Nodup := (List.nodup_cons.1 hnd).2
    have hdni : d ∉ rest := (List.nodup_cons.1 hnd).1
    have hrows := boostStep_rows x y st d
    have hcols := boostStep_cols x y st d
    have hatt := boostStep_attacked x y st d
    have hrect' : Rect (boostStep x y st d).probabilityMap
        (boostStep x y st d).rows (boostStep x y st d).cols := by
      rw [hrows, hcols]
      exact boostStep_rect x y st d hrect
    have hstep := probAt_boostStep x y st d hrect p
    have hmain := ih (boostStep x y st d) hnd' hrect' p
    rw [hrows, hcols, hatt] at hmain
    rw [hmain, hstep]
    by_cases hG : inGrid st.rows st.cols p ∧ p ∉ st.attacked
    · by_cases hoff : (p.1 - x, p.2 - y) = d
      · have hpn : p = (x + d.1, y + d.2) := by
          rcases p with ⟨a, b⟩
          rw [Prod.mk.injEq] at hoff ⊢
          constructor <;> omega
        have hn1 : ¬ ((p.1 - x, p.2 - y) ∈ rest ∧ inGrid st.rows st.cols p ∧
            p ∉ st.attacked) := fun hh => hdni (hoff ▸ hh.1)
        have hm : (p.1 - x, p.2 - y) ∈ d :: rest := by
          rw [hoff]; exact List.mem_cons_self _ _
        rw [if_neg hn1, if_pos ⟨hpn, hG.1, hG.2⟩, if_pos ⟨hm, hG.1, hG.2⟩]
      · have hpn : p ≠ (x + d.1, y + d.2) := by
          intro hh
          apply hoff
          rcases p with ⟨a, b⟩
          rw [Prod.mk.injEq] at hh ⊢
          constructor <;> omega
        have hn2 : ¬ (p = (x + d.1, y + d.2) ∧ inGrid st.rows st.cols p ∧
            p ∉ st.attacked) := fun hh => hpn hh.1
        by_cases hr : (p.1 - x, p.2 - y) ∈ rest
        · rw [if_neg hn2, if_pos ⟨hr, hG.1, hG.2⟩,
            if_pos ⟨List.mem_cons_of_mem d hr, hG.1, hG.2⟩]
        · have hn3 : ¬ ((p.1 - x, p.2 - y) ∈ rest ∧ inGrid st.rows st.cols p ∧
              p ∉ st.attacked) := fun hh => hr hh.1
          have hn4 : ¬ ((p.1 - x, p.2 - y) ∈ d :: rest ∧ inGrid st.rows st.cols p ∧
              p ∉ st.attacked) := by
            rintro ⟨hm, -⟩
            rcases List.mem_cons.1 hm with hm | hm
            · exact hoff hm
            · exact hr hm
          rw [if_neg hn3, if_neg hn2, if_neg hn4]
    · have hn5 : ¬ ((p.1 - x, p.2 - y) ∈ rest ∧ inGrid st.rows st.cols p ∧
          p ∉ st.attacked) := fun hh => hG ⟨hh.2.1, hh.2.2⟩
      have hn6 : ¬ (p = (x + d.1, y + d.2) ∧ inGrid st.rows st.cols p ∧
          p ∉ st.attacked) := fun hh => hG ⟨hh.2.1, hh.2.2⟩
      have hn7 : ¬ ((p.1 - x, p.2 - y) ∈ d :: rest ∧ inGrid st.rows st.cols p ∧
          p ∉ st.attacked) := fun hh => hG ⟨hh.2.1, hh.2.2⟩
      rw [if_neg hn5, if_neg hn6, if_neg hn7]

lemma offset_mem_strategyDirs_iff {x y : ℤ} {p : Cell} :
    (p.1 - x, p.2 - y) ∈ strategyDirs ↔ adjacent (x, y) p := by
  rcases p with ⟨a, b⟩
  unfold strategyDirs adjacent
  simp only [List.mem_cons, List.not_mem_nil, or_false, Prod.mk.injEq]
  omega

/-- **C6.** After `register_attack(x, y, is_hit=True, is_sunk=False)` the
probability of each in-bounds, un-attacked orthogonal neighbour of `(x, y)`
is exactly twice its prior value, and the probability of every other cell
(attacked neighbours, out-of-bounds neighbours, all non-neighbours) is
unchanged. -/
theorem hit_boosts_neighbors (s : Strategy) (x y : ℤ)
    (hrect : Rect s.probabilityMap s.rows s.cols) (p : Cell) :
    probAt (registerAttack x y true false s) p =
      if adjacent (x, y) p ∧ inGrid s.rows s.cols p ∧ p ∉ s.attacked
      then probAt s p * 2 else probAt s p := by
  have h := probAt_boostFold x y strategyDirs
    { s with attacked := insert (x, y) s.attacked,
             enemyBoard := set2D s.enemyBoard (x, y) 'H' } (by decide) hrect p
  have hgoal : probAt (registerAttack x y true false s) p =
      (if (p.1 - x, p.2 - y) ∈ strategyDirs ∧ inGrid s.rows s.cols p ∧
        p ∉ insert (x, y) s.attacked then probAt s p * 2 else probAt s p) := h
  rw [hgoal]
  by_cases hcond : adjacent (x, y) p ∧ inGrid s.rows s.cols p ∧ p ∉ s.attacked
  · have hnotin : p ∉ insert (x, y) s.attacked := by
      rw [Finset.mem_insert]
      rintro (h | h)
      · exact adjacent_ne hcond.1 h.symm
      · exact hcond.2.2 h
    rw [if_pos ⟨offset_mem_strategyDirs_iff.2 hcond.1, hcond.2.1, hnotin⟩,
      if_pos hcond]
  · have hn : ¬ ((p.1 - x, p.2 - y) ∈ strategyDirs ∧ inGrid s.rows s.cols p ∧
        p ∉ insert (x, y) s.attacked) := by
      rintro ⟨h1, h2, h3⟩
      exact hcond ⟨offset_mem_strategyDirs_iff.1 h1, h2,
        fun hh => h3 (Finset.mem_insert_of_mem hh)⟩
    rw [if_neg hn, if_neg hcond]

/-- Witness for C6 (the spec's own example): after a hit at `(3, 3)` on a
fresh 10×10 strategy, the neighbour `(2, 3)` doubles from `1.0` to `2.0`
while the non-neighbour `(5, 5)` stays at `1.0`. -/
theorem hit_boosts_neighbors_witness :
    probAt (registerAttack 3 3 true false (mkStrategy 10 10 fun _ => 0)) (2, 3) = 2 ∧
    probAt (registerAttack 3 3 true false (mkStrategy 10 10 fun _ => 0)) (5, 5) = 1 := by
  have h1 := hit_boosts_neighbors (mkStrategy 10 10 fun _ => 0) 3 3 (by decide) (2, 3)
  have h2 := hit_boosts_neighbors (mkStrategy 10 10 fun _ => 0) 3 3 (by decide) (5, 5)
  rw [if_pos (by decide)] at h1
  rw [if_neg (by decide)] at h2
  constructor
  · rw [h1, show probAt (mkStrategy 10 10 fun _ => 0) (2, 3) = 1 from rfl, one_mul]
  · rw [h2, show probAt (mkStrategy 10 10 fun _ => 0) (5, 5) = 1 from rfl]

/-- The loop invariant of the maximum scan in `get_next_attack`: after
processing the cells of `done`, either no un-attacked cell has been seen
(running maximum still `-1`, no candidates), or the candidate list is
exactly the un-attacked cells of `done` attaining the (non-negative)
running maximum. -/
def ScanInv (s : Strategy) (done : List Cell) (m : ℚ) (c : List Cell) : Prop :=
  ((∀ p ∈ done, p ∈ s.attacked) ∧ m = -1 ∧ c = []) ∨
  (c ≠ [] ∧ 0 ≤ m ∧
    (∀ p ∈ c, p ∈ done ∧ p ∉ s.attacked ∧ probAt s p = m) ∧
    (∀ p ∈ done, p ∉ s.attacked → probAt s p ≤ m) ∧
    (∀ p ∈ done, p ∉ s.attacked → probAt s p = m → p ∈ c))

lemma scanInv_step (s : Strategy) (done : List Cell) (m : ℚ) (c : List Cell)
    (q : Cell) (hq : q ∉ s.attacked → 0 ≤ probAt s q) (h : ScanInv s done m c) :
    ScanInv s (done ++ [q]) (scanStep s (m, c) q).1 (scanStep s (m, c) q).2 := by
  unfold scanStep
  by_cases hqa : q ∉ s.attacked
  · have h0 := hq hqa
    rw [if_pos hqa]
    by_cases hgt : probAt s q > m
    · rw [if_pos hgt]
      refine Or.inr ⟨by simp, h0, ?_, ?_, ?_⟩
      · intro p hpc
        rw [List.mem_singleton] at hpc
        subst hpc
        exact ⟨List.mem_append_right _ (List.mem_singleton.2 rfl), hqa, rfl⟩
      · intro p hpd hpa
        rcases List.mem_append.1 hpd with hpd | hpd
        · rcases h with ⟨ha, -, -⟩ | ⟨-, -, -, hbd, -⟩
          · exact absurd (ha p hpd) hpa
          · exact (hbd p hpd hpa).trans hgt.le
        · rw [List.mem_singleton] at hpd
          subst hpd
          exact le_refl _
      · intro p hpd hpa hpm
        rcases List.mem_append.1 hpd with hpd | hpd
        · exfalso
          rcases h with ⟨ha, -, -⟩ | ⟨-, -, -, hbd, -⟩
          · exact absurd (ha p hpd) hpa
          · exact absurd hpm (by have := hbd p hpd hpa; intro hh; rw [hh] at this; exact absurd hgt (not_lt.2 this))
        · exact hpd
    · rw [if_neg hgt]
      by_cases heq : probAt s q = m
      · rw [if_pos heq]
        rcases h with ⟨-, hm, -⟩ | ⟨hcne, hm0, hmem, hbd, hcomp⟩
        · exfalso
          rw [hm] at heq
          rw [heq] at h0
          linarith
        · refine Or.inr ⟨by simp [hcne], hm0, ?_, ?_, ?_⟩
          · intro p hpc
            rcases List.mem_append.1 hpc with hpc | hpc
            · obtain ⟨h1, h2, h3⟩ := hmem p hpc
              exact ⟨List.mem_append_left _ h1, h2, h3⟩
            · rw [List.mem_singleton] at hpc
              subst hpc
              exact ⟨List.mem_append_right _ (List.mem_singleton.2 rfl), hqa, heq⟩
          · intro p hpd hpa
            rcases List.mem_append.1 hpd with hpd | hpd
            · exact hbd p hpd hpa
            · rw [List.mem_singleton] at hpd
              subst hpd
              exact heq.le
          · intro p hpd hpa hpm
            rcases List.mem_append.1 hpd with hpd | hpd
            · exact List.mem_append_left _ (hcomp p hpd hpa hpm)
            · rw [List.mem_singleton] at hpd
              subst hpd
              exact List.mem_append_right _ (List.mem_singleton.2 rfl)
      · rw [if_neg heq]
        rcases h with ⟨-, hm, -⟩ | ⟨hcne, hm0, hmem, hbd, hcomp⟩
        · exfalso
          rw [hm] at hgt heq
          rcases lt_or_eq_of_le h0 with hh | hh
          · exact hgt (by linarith)
          · exact heq (by linarith)
        · refine Or.inr ⟨hcne, hm0, ?_, ?_, ?_⟩
          · intro p hpc
            obtain ⟨h1, h2, h3⟩ := hmem p hpc
            exact ⟨List.mem_append_left _ h1, h2, h3⟩
          · intro p hpd hpa
            rcases List.mem_append.1 hpd with hpd | hpd
            · exact hbd p hpd hpa
            · rw [List.mem_singleton] at hpd
              subst hpd
              exact not_lt.1 hgt
          · intro p hpd hpa hpm
            rcases List.mem_append.1 hpd with hpd | hpd
            · exact hcomp p hpd hpa hpm
            · rw [List.mem_singleton] at hpd
              subst hpd
              exact absurd hpm heq
  · rw [if_neg hqa]
    rw [not_not] at hqa
    rcases h with ⟨ha, hm, hc⟩ | ⟨hcne, hm0, hmem, hbd, hcomp⟩
    · refine Or.inl ⟨?_, hm, hc⟩
      intro p hpd
      rcases List.mem_append.1 hpd with hpd | hpd
      · exact ha p hpd
      · rw [List.mem_singleton] at hpd
        subst hpd
        exact hqa
    · refine Or.inr ⟨hcne, hm0, ?_, ?_, ?_⟩
      · intro p hpc
        obtain ⟨h1, h2, h3⟩ := hmem p hpc
        exact ⟨List.mem_append_left _ h1, h2, h3⟩
      · intro p hpd hpa
        rcases List.mem_append.1 hpd with hpd | hpd
        · exact hbd p hpd hpa
        · rw [List.mem_singleton] at hpd
          subst hpd
          exact absurd hqa hpa
      · intro p hpd hpa hpm
        rcases List.mem_append.1 hpd with hpd | hpd
        · exact hcomp p hpd hpa hpm
        · rw [List.mem_singleton] at hpd
          subst hpd
          exact absurd hqa hpa

lemma scanInv_fold (s : Strategy) :
    ∀ (ps done : List Cell) (m : ℚ) (c : List Cell),
      (∀ q ∈ ps, q ∉ s.attacked → 0 ≤ probAt s q) → ScanInv s done m c →
      ScanInv s (done ++ ps) (ps.foldl (scanStep s) (m, c)).1
        (ps.foldl (scanStep s) (m, c)).2 := by
  intro ps
  induction ps with
  | nil =>
    intro done m c _ h
    rw [List.append_nil]
    exact h
  | cons q ps ih =>
    intro done m c hq h
    have hstep := scanInv_step s done m c q
      (hq q (List.mem_cons_self _ _)) h
    have := ih (done ++ [q]) (scanStep s (m, c) q).1 (scanStep s (m, c) q).2
      (fun r hr => hq r (List.mem_cons_of_mem _ hr)) hstep
    rw [List.append_assoc] at this
    simpa [List.foldl_cons] using this

lemma paritySort_subset {l : List Cell} {p : Cell} (h : p ∈ paritySort l) : p ∈ l := by
  unfold paritySort at h
  rcases List.mem_append.1 h with h | h <;> exact (List.mem_filter.1 h).1

lemma paritySort_ne_nil {l : List Cell} (h : l ≠ []) : paritySort l ≠ [] := by
  unfold paritySort
  intro hemp
  rcases List.append_eq_nil.1 hemp with ⟨h1, h2⟩
  cases l with
  | nil => exact h rfl
  | cons a t =>
    by_cases hpar : cellParity a = 1
    · have : a ∈ (a :: t).filter (fun p => decide (cellParity p = 1)) :=
        List.mem_filter.2 ⟨List.mem_cons_self _ _, by simp [hpar]⟩
      rw [h1] at this
      exact List.not_mem_nil _ this
    · have : a ∈ (a :: t).filter (fun p => ¬ decide (cellParity p = 1)) :=
        List.mem_filter.2 ⟨List.mem_cons_self _ _, by simp [hpar]⟩
      rw [h2] at this
      exact List.not_mem_nil _ this

lemma paritySort_head_parity {l : List Cell} {h : Cell} {t : List Cell}
    (hht : paritySort l = h :: t) {q : Cell} (hq : q ∈ l) (hq1 : cellParity q = 1) :
    cellParity h = 1 := by
  have hqf : q ∈ l.filter (fun p => decide (cellParity p = 1)) :=
    List.mem_filter.2 ⟨hq, by simp [hq1]⟩
  unfold paritySort at hht
  cases hf : l.filter (fun p => decide (cellParity p = 1)) with
  | nil =>
    rw [hf] at hqf
    exact absurd hqf (List.not_mem_nil _)
  | cons h' t' =>
    rw [hf, List.cons_append, List.cons.injEq] at hht
    obtain ⟨hh1, -⟩ := hht
    have hh' : h' ∈ l.filter (fun p => decide (cellParity p = 1)) := by
      rw [hf]; exact List.mem_cons_self _ _
    have hdec := (List.mem_filter.1 hh').2
    rw [← hh1]
    simpa using hdec

lemma selectFrom_spec (s : Strategy) (c : List Cell) (hc : c ≠ []) :
    ∃ p, selectFrom s c = Except.ok p ∧ p ∈ c ∧
      ((∃ q ∈ c, cellParity q = 1) → cellParity p = 1) := by
  unfold selectFrom
  by_cases hlen : c.length > 1
  · rw [if_pos hlen]
    obtain ⟨h, t, hht⟩ := List.exists_cons_of_ne_nil (paritySort_ne_nil hc)
    rw [hht]
    refine ⟨h, rfl, paritySort_subset (hht ▸ List.mem_cons_self _ _), ?_⟩
    rintro ⟨q, hq, hq1⟩
    exact paritySort_head_parity hht hq hq1
  · rw [if_neg hlen]
    obtain ⟨h, t, hht⟩ := List.exists_cons_of_ne_nil hc
    have ht : t = [] := by
      subst hht
      rw [List.length_cons] at hlen
      cases t with
      | nil => rfl
      | cons a r => exact absurd (by rw [List.length_cons]; omega) hlen
    subst hht ht
    refine ⟨h, rfl, List.mem_cons_self _ _, ?_⟩
    rintro ⟨q, hq, hq1⟩
    rw [List.mem_singleton] at hq
    exact hq ▸ hq1

/-- Shared characterisation of `get_next_attack` on a state with at least
one un-attacked cell and non-negative probabilities (the `ProbabilityMap`
data-model invariant): the result is an un-attacked in-bounds cell of
maximum probability, parity-1 when a parity-1 cell is among the tied
maxima. -/
lemma getNextAttack_spec (s : Strategy)
    (hp : ∀ p, inGrid s.rows s.cols p → p ∉ s.attacked → 0 ≤ probAt s p)
    (hex : ∃ p, inGrid s.rows s.cols p ∧ p ∉ s.attacked) :
    ∃ p, getNextAttack s = Except.ok p ∧ inGrid s.rows s.cols p ∧
      p ∉ s.attacked ∧
      (∀ q, inGrid s.rows s.cols q → q ∉ s.attacked → probAt s q ≤ probAt s p) ∧
      ((∃ q, inGrid s.rows s.cols q ∧ q ∉ s.attacked ∧ probAt s q = probAt s p ∧
          cellParity q = 1) → cellParity p = 1) := by
  have hinv := scanInv_fold s (rowMajor s.rows s.cols) [] (-1) []
    (fun q hq => hp q (mem_rowMajor.1 hq)) (Or.inl ⟨by simp, rfl, rfl⟩)
  rw [List.nil_append] at hinv
  obtain ⟨p0, hp0g, hp0a⟩ := hex
  rcases hinv with ⟨hall, -, -⟩ | ⟨hcne, hm0, hmem, hbd, hcomp⟩
  · exact absurd (hall p0 (mem_rowMajor.2 hp0g)) hp0a
  · obtain ⟨p, hok, hpc, hpar⟩ := selectFrom_spec s _ hcne
    obtain ⟨hpd, hpa, hpm⟩ := hmem p hpc
    refine ⟨p, hok, mem_rowMajor.1 hpd, hpa, ?_, ?_⟩
    · intro q hqg hqa
      rw [hpm]
      exact hbd q (mem_rowMajor.2 hqg) hqa
    · rintro ⟨q, hqg, hqa, hqm, hq1⟩
      refine hpar ⟨q, ?_, hq1⟩
      exact hcomp q (mem_rowMajor.2 hqg) hqa (by rw [hqm, hpm])

/-- **C5.** On any strategy state with a non-negative probability map and at
least one un-attacked cell, `get_next_attack` returns an un-attacked
in-bounds cell of maximum probability among un-attacked cells, preferring a
parity-1 cell whenever one is among the tied maxima; in particular on a
fresh 2×2 strategy (uniform map, empty history) it returns the parity-1
cell `(1, 0)`. -/
theorem targeting_selects_max (s : Strategy)
    (hp : ∀ p, inGrid s.rows s.cols p → p ∉ s.attacked → 0 ≤ probAt s p)
    (hex : ∃ p, inGrid s.rows s.cols p ∧ p ∉ s.attacked) :
    (∃ p, getNextAttack s = Except.ok p ∧ inGrid s.rows s.cols p ∧
      p ∉ s.attacked ∧
      (∀ q, inGrid s.rows s.cols q → q ∉ s.attacked → probAt s q ≤ probAt s p) ∧
      ((∃ q, inGrid s.rows s.cols q ∧ q ∉ s.attacked ∧ probAt s q = probAt s p ∧
          cellParity q = 1) → cellParity p = 1)) ∧
    getNextAttack (mkStrategy 2 2 fun _ => 0) = Except.ok (1, 0) :=
  ⟨getNextAttack_spec s hp hex, rfl⟩

/-- Witness for C5: on the fresh 2×2 strategy the hypotheses hold, and the
selected cell is the parity-1 cell `(1, 0)`. -/
theorem targeting_selects_max_witness :
    ∃ p, getNextAttack (mkStrategy 2 2 fun _ => 0) = Except.ok p ∧
      cellParity p = 1 := by
  have hp : ∀ p, inGrid (mkStrategy 2 2 fun _ => 0).rows
      (mkStrategy 2 2 fun _ => 0).cols p →
      p ∉ (mkStrategy 2 2 fun _ => 0).attacked →
      0 ≤ probAt (mkStrategy 2 2 fun _ => 0) p := by
    rintro ⟨a, b⟩ hg -
    obtain ⟨h1, h2, h3, h4⟩ := hg
    have ha1 : (0 : ℤ) ≤ a := h1
    have ha2 : a < 2 := h2
    have hb1 : (0 : ℤ) ≤ b := h3
    have hb2 : b < 2 := h4
    clear h1 h2 h3 h4
    interval_cases a <;> interval_cases b <;> decide
  have hex : ∃ p, inGrid (mkStrategy 2 2 fun _ => 0).rows
      (mkStrategy 2 2 fun _ => 0).cols p ∧
      p ∉ (mkStrategy 2 2 fun _ => 0).attacked := ⟨(0, 0), by decide, by decide⟩
  obtain ⟨⟨p, hok, hin, hatt, hmax, hpar⟩, -⟩ :=
    targeting_selects_max (mkStrategy 2 2 fun _ => 0) hp hex
  have hpv : probAt (mkStrategy 2 2 fun _ => 0) p = 1 := by
    rcases p with ⟨a, b⟩
    obtain ⟨h1, h2, h3, h4⟩ := hin
    have ha1 : (0 : ℤ) ≤ a := h1
    have ha2 : a < 2 := h2
    have hb1 : (0 : ℤ) ≤ b := h3
    have hb2 : b < 2 := h4
    clear h1 h2 h3 h4
    interval_cases a <;> interval_cases b <;> rfl
  refine ⟨p, hok, hpar ⟨(1, 0), by decide, by decide, ?_, by decide⟩⟩
  rw [hpv]
  rfl

lemma fallbackAttack_error (s : Strategy)
    (h : ∀ p, inGrid s.rows s.cols p → p ∈ s.attacked) :
    fallbackAttack s = Except.error BattleError.noAttacksRemaining := by
  unfold fallbackAttack
  rw [List.find?_eq_none.2]
  intro p hp
  simp only [decide_eq_true_eq, Decidable.not_not]
  exact h p (mem_rowMajor.1 hp)

lemma getNextAttack_exhausted (s : Strategy)
    (h : ∀ p, inGrid s.rows s.cols p → p ∈ s.attacked) :
    getNextAttack s = Except.error BattleError.noAttacksRemaining := by
  have hinv := scanInv_fold s (rowMajor s.rows s.cols) [] (-1) []
    (fun q hq hqa => absurd (h q (mem_rowMajor.1 hq)) hqa)
    (Or.inl ⟨by simp, rfl, rfl⟩)
  rw [List.nil_append] at hinv
  rcases hinv with ⟨-, -, hc⟩ | ⟨hcne, -, hmem, -, -⟩
  · unfold getNextAttack
    rw [hc]
    exact fallbackAttack_error s h
  · obtain ⟨p, hpc⟩ := List.exists_mem_of_ne_nil _ hcne
    obtain ⟨hpd, hpa, -⟩ := hmem p hpc
    exact absurd (h p (mem_rowMajor.1 hpd)) hpa

/-- A 2×2 strategy state whose probability map is identically zero and whose
attack history is empty: the degenerate state of C7. -/
def zeroProbState : Strategy :=
  { mkStrategy 2 2 (fun _ => 0) with probabilityMap := [[0, 0], [0, 0]] }

/-- Counterexample to C7 as stated: on a state where every un-attacked cell
has probability zero, `get_next_attack` does not return the first un-attacked
cell in row-major order (that would be `(0, 0)`, which is indeed what the
fallback would return): the zero probabilities still beat the `-1` seed of
the scan, so the candidate list is non-empty and the checkerboard tie-break
returns the parity-1 cell `(1, 0)` instead. -/
theorem degenerate_fallback_cex :
    zeroProbState.attacked = ∅ ∧
    (∀ p ∈ rowMajor 2 2, probAt zeroProbState p = 0) ∧
    fallbackAttack zeroProbState = Except.ok (0, 0) ∧
    getNextAttack zeroProbState = Except.ok (1, 0) ∧
    ((1, 0) : Cell) ≠ ((0, 0) : Cell) :=
  ⟨rfl, by decide, rfl, rfl, by decide⟩

/-- **C7 (amended).** `get_next_attack` reaches the row-major fallback only
when every cell has already been attacked, in which case it fails with
`NoAttacksRemaining`; when un-attacked cells remain but all have probability
zero, they still tie for the maximum, so the checkerboard tie-break applies
and a parity-1 un-attacked cell is returned whenever one exists (not the
first un-attacked cell in row-major order). -/
theorem degenerate_fallback_amended (s : Strategy) :
    ((∀ p, inGrid s.rows s.cols p → p ∈ s.attacked) →
      getNextAttack s = Except.error BattleError.noAttacksRemaining) ∧
    ((∃ p, inGrid s.rows s.cols p ∧ p ∉ s.attacked) →
      (∀ p, inGrid s.rows s.cols p → p ∉ s.attacked → probAt s p = 0) →
      ∃ p, getNextAttack s = Except.ok p ∧ inGrid s.rows s.cols p ∧
        p ∉ s.attacked ∧
        ((∃ q, inGrid s.rows s.cols q ∧ q ∉ s.attacked ∧ cellParity q = 1) →
          cellParity p = 1)) := by
  refine ⟨getNextAttack_exhausted s, ?_⟩
  intro hex hzero
  obtain ⟨p, hok, hin, hatt, hmax, hpar⟩ := getNextAttack_spec s
    (fun q hq ha => le_of_eq (hzero q hq ha).symm) hex
  refine ⟨p, hok, hin, hatt, ?_⟩
  rintro ⟨q, hq1, hq2, hq3⟩
  exact hpar ⟨q, hq1, hq2, by rw [hzero q hq1 hq2, hzero p hin hatt], hq3⟩

/-- Witness for the amended C7: on the all-zero 2×2 state the amended
theorem applies and produces the parity-1 cell. -/
theorem degenerate_fallback_amended_witness :
    ∃ p, getNextAttack zeroProbState = Except.ok p ∧ cellParity p = 1 := by
  obtain ⟨-, h2⟩ := degenerate_fallback_amended zeroProbState
  have hz : ∀ p, inGrid zeroProbState.rows zeroProbState.cols p →
      p ∉ zeroProbState.attacked → probAt zeroProbState p = 0 := by
    rintro ⟨a, b⟩ hg -
    obtain ⟨h1, h2, h3, h4⟩ := hg
    have ha1 : (0 : ℤ) ≤ a := h1
    have ha2 : a < 2 := h2
    have hb1 : (0 : ℤ) ≤ b := h3
    have hb2 : b < 2 := h4
    clear h1 h2 h3 h4
    interval_cases a <;> interval_cases b <;> rfl
  obtain ⟨p, hok, hin, hatt, hpar⟩ := h2 ⟨(0, 0), by decide, by decide⟩ hz
  exact ⟨p, hok, hpar ⟨(1, 0), by decide, by decide, by decide⟩⟩

/-- `ship_specs` sizes of `board_setup.py` (lines 85–93). -/
def specSize (i : ℕ) : ℕ :=
  if i = 1 then 2 else if i = 2 then 3 else if i = 3 then 4 else if i = 4 then 4
  else if i = 5 then 4 else if i = 6 then 4 else if i = 7 then 6 else 0

/-- `ship_specs` shape families (each `shapes` list is a singleton, so
`random.choice(spec['shapes'])` is deterministic). -/
def specShape (i : ℕ) : Char :=
  if i = 1 then 'I' else if i = 2 then 'I' else if i = 3 then 'I'
  else if i = 4 then 'T' else if i = 5 then 'L' else if i = 6 then 'Z'
  else if i = 7 then 'U' else ' '

/-- `sorted(self.ships_dict.keys(), key=lambda x: ship_specs[x]['size'],
reverse=True)` on the keys `1..7` that `battle.py` always supplies: Python's
stable sort on sizes `[2,3,4,4,4,4,6]` descending. -/
def shipIdsBySize : List ℕ := [7, 3, 4, 5, 6, 2, 1]

/-- `random.choice(l)`, modelled by an arbitrary oracle index (every real
draw is `chooseFrom l d pick` for some `pick`). -/
def chooseFrom {α : Type} (l : List α) (d : α) (pick : ℕ) : α :=
  l.getD (pick % l.length) d

/-- The two `Z` variants of `_generate_shape` (lines 26–29). -/
def zVariants : List (List Cell) :=
  [[(0, 0), (1, 0), (1, 1), (2, 1)], [(0, 1), (1, 1), (1, 0), (2, 0)]]

/-- The four `L` variants of `_generate_l_shape` (lines 39–49). -/
def lVariants : List (List Cell) :=
  [[(0, 0), (0, 1), (0, 2), (1, 2)], [(0, 0), (1, 0), (2, 0), (2, 1)],
   [(0, 0), (1, 0), (2, 0), (0, 1)], [(0, 0), (0, 1), (1, 1), (2, 1)]]

/-- `_generate_shape` (lines 13–36); the `TT` family is encoded here as the
character `U`.  The `L` branch is dead code for the actual specs (ship 5 is
special-cased to `_generate_l_shape` in `_try_place_ship`) but is modelled
anyway. -/
def generateShape (shapeType : Char) (size : ℕ) (pick : ℕ) : List Cell :=
  if shapeType = 'I' then (List.range size).map fun (i : ℕ) => ((i : ℤ), 0)
  else if shapeType = 'L' then
    ((List.range size).map fun (i : ℕ) => (0, (i : ℤ))) ++ [(1, (size : ℤ) - 1)]
  else if shapeType = 'T' then [(0, 0), (1, 0), (2, 0), (1, 1)]
  else if shapeType = 'Z' then chooseFrom zVariants [] pick
  else if shapeType = 'U' then [(1, 0), (2, 0), (0, 1), (1, 1), (2, 1), (3, 1)]
  else []

/-- `_generate_l_shape` (lines 39–49). -/
def generateLShape (pick : ℕ) : List Cell := chooseFrom lVariants [] pick

/-- The rotation of a single offset in `_rotate_shape` (lines 52–63);
degrees other than 90/180/270 leave the offset unchanged. -/
def rotOffset (deg : ℕ) (d : Cell) : Cell :=
  if deg = 90 then (-d.2, d.1)
  else if deg = 180 then (-d.1, -d.2)
  else if deg = 270 then (d.2, -d.1)
  else d

/-- `_rotate_shape` (lines 52–63). -/
def rotateShape (shape : List Cell) (deg : ℕ) (x y : ℤ) : List Cell :=
  shape.map fun d => (x + (rotOffset deg d).1, y + (rotOffset deg d).2)

/-- The neighbour offsets of `_is_valid_placement` (line 186). -/
def setupDirs : List Cell := [(-1, 0), (1, 0), (0, -1), (0, 1)]

/-- `_is_valid_placement` (lines 169–192): every cell in bounds, currently
empty, and with no occupied in-bounds orthogonal neighbour. -/
def isValidPlacement (rows cols : ℕ) (b : Board) (cells : List Cell) : Prop :=
  ∀ p ∈ cells, inGrid rows cols p ∧ cellAt b p = 0 ∧
    ∀ d ∈ setupDirs, inGrid rows cols (p.1 + d.1, p.2 + d.2) →
      cellAt b (p.1 + d.1, p.2 + d.2) = 0

instance (rows cols : ℕ) (b : Board) (cells : List Cell) :
    Decidable (isValidPlacement rows cols b cells) := by
  unfold isValidPlacement; infer_instance

/-- The placement write `self.board[cy][cx] = ship_id` over all shape
cells (line 164–165). -/
def writeCells (b : Board) (sid : ℕ) (cells : List Cell) : Board :=
  cells.foldl (fun bb p => set2D bb p sid) b

/-- The rotation loop of `_try_place_ship` (lines 160–166) at one anchor:
first orientation whose cells are non-empty and valid. -/
def tryRotations (rows cols : ℕ) (b : Board) (shape : List Cell) (x y : ℤ) :
    List ℕ → Option (List Cell)
  | [] => none
  | deg :: rest =>
    if rotateShape shape deg x y ≠ [] ∧
        isValidPlacement rows cols b (rotateShape shape deg x y) then
      some (rotateShape shape deg x y)
    else tryRotations rows cols b shape x y rest

/-- The anchor loop of `_try_place_ship` (lines 159–166). -/
def findSpot (rows cols : ℕ) (b : Board) (shape : List Cell) :
    List Cell → Option (List Cell)
  | [] => none
  | p :: rest =>
    match tryRotations rows cols b shape p.1 p.2 [0, 90, 180, 270] with
    | some cells => some cells
    | none => findSpot rows cols b shape rest

/-- `_try_place_ship` (lines 144–167); the `max_attempts = 6900` variable of
line 147 is never used by the source.  `pick` supplies the `random.choice`
draw for the shape variant. -/
def tryPlaceShip (rows cols : ℕ) (b : Board) (sid : ℕ) (pick : ℕ)
    (positions : List Cell) : Option Board :=
  let shape := if sid = 5 then generateLShape pick
               else generateShape (specShape sid) (specSize sid) pick
  if shape = [] then none
  else
    match findSpot rows cols b shape positions with
    | some cells => some (writeCells b sid cells)
    | none => none

/-- Placement randomness: round `r`'s shuffled anchor list and the variant
choice for each ship slot.  A real run supplies a permutation of the grid
cells as `shuffle r`; the theorems quantify over arbitrary lists, which
subsumes every permutation. -/
structure PlacementOracle where
  shuffle : ℕ → List Cell
  pick : ℕ → ℕ → ℕ

/-- The requested ship ids with multiplicity, in the largest-first order the
placement loop processes them. -/
def expandCounts (counts : ℕ → ℕ) : List ℕ :=
  (shipIdsBySize.map fun i => List.replicate (counts i) i).flatten

/-- `sum(self.ship_specs[i]['size'] * count ...)` over the keys `1..7`
(line 127). -/
def totalRequired (counts : ℕ → ℕ) : ℕ :=
  2 * counts 1 + 3 * counts 2 + 4 * counts 3 + 4 * counts 4 + 4 * counts 5 +
    4 * counts 6 + 6 * counts 7

/-- `sum(ship_counts.values())`. -/
def sumCounts (counts : ℕ → ℕ) : ℕ :=
  counts 1 + counts 2 + counts 3 + counts 4 + counts 5 + counts 6 + counts 7

/-- The all-water board of `__init__` / `reset_board`. -/
def emptyBoard (rows cols : ℕ) : Board :=
  List.replicate rows (List.replicate cols 0)

/-- The `for ship_id in ship_ids: for _ in range(count)` loop of
`place_ships` (lines 135–141), threading a slot counter for the oracle;
`none` means some ship could not be placed (triggering the global reset). -/
def placeSeq (rows cols : ℕ) (pick : ℕ → ℕ) (positions : List Cell) :
    List ℕ → ℕ → Board → Option Board
  | [], _, b => some b
  | sid :: rest, k, b =>
    match tryPlaceShip rows cols b sid (pick k) positions with
    | some b' => placeSeq rows cols pick positions rest (k + 1) b'
    | none => none

/-- `place_ships` (lines 115–142): check the space bound, shuffle the anchor
positions, place every requested ship largest-first; on any failure reset
the board and recurse.  The source recursion is unbounded; the model bounds
it with `fuel` and returns `none` when the budget runs out (a state in which
the source would still be recursing, never a value it returns). -/
def placeShipsAux (rows cols : ℕ) (counts : ℕ → ℕ) (o : PlacementOracle) :
    ℕ → ℕ → Option (Except BattleError Board)
  | 0, _ => none
  | fuel + 1, round =>
    if totalRequired counts > rows * cols then
      some (Except.error BattleError.insufficientSpace)
    else
      match placeSeq rows cols (o.pick round) (o.shuffle round)
          (expandCounts counts) 0 (emptyBoard rows cols) with
      | some b => some (Except.ok b)
      | none => placeShipsAux rows cols counts o fuel (round + 1)

/-- `BoardSetup.place_ships`; `get_board` returns a value-equal copy, so the
board the engine extracts from is this one. -/
def placeShips (rows cols : ℕ) (counts : ℕ → ℕ) (o : PlacementOracle)
    (fuel : ℕ) : Option (Except BattleError Board) :=
  placeShipsAux rows cols counts o fuel 0

/-- The neighbour offsets of the flood fill in `get_ship_instances`
(`battle.py` line 63). -/
def extractDirs : List Cell := [(1, 0), (-1, 0), (0, 1), (0, -1)]

/-- The stack-based flood fill of `get_ship_instances` (`battle.py` lines
56–67): pop the top, skip if already in the component, otherwise add it and
push the in-bounds neighbours carrying the same ship id that are not in the
component yet.  The list head is the stack top, so the pushes of one
iteration are reversed (Python appends them at the end, making the last one
the next to pop).  The fuel passed by `extractGo` provably suffices. -/
def floodFill (b : Board) (rows cols sid : ℕ) :
    ℕ → List Cell → Finset Cell → Finset Cell
  | 0, _, comp => comp
  | _ + 1, [], comp => comp
  | fuel + 1, c :: stack, comp =>
    if c ∈ comp then floodFill b rows cols sid fuel stack comp
    else
      floodFill b rows cols sid fuel
        ((((extractDirs.map fun d => (c.1 + d.1, c.2 + d.2)).filter fun q =>
          decide (inGrid rows cols q) && decide (cellAt b q = sid) &&
            decide (q ∉ insert c comp)).reverse) ++ stack)
        (insert c comp)

/-- The scan loop of `get_ship_instances` (`battle.py` lines 51–68):
row-major over all cells, starting a flood fill at every unvisited non-zero
cell; `visited` accumulates exactly the union of the components found
(`visited.add` happens together with `component.add` in the source). -/
def extractGo (b : Board) (rows cols : ℕ) :
    List Cell → Finset Cell → List ShipInstance → List ShipInstance
  | [], _, acc => acc
  | p :: ps, visited, acc =>
    if cellAt b p ≠ 0 ∧ p ∉ visited then
      extractGo b rows cols ps
        (visited ∪ floodFill b rows cols (cellAt b p) (5 * rows * cols + 1) [p] ∅)
        (acc ++ [⟨cellAt b p, floodFill b rows cols (cellAt b p) (5 * rows * cols + 1) [p] ∅, ∅⟩])
    else extractGo b rows cols ps visited acc

/-- `get_ship_instances` (`battle.py` lines 37–69). -/
def getShipInstances (b : Board) : List ShipInstance :=
  extractGo b b.length (b.getD 0 []).length
    (rowMajor b.length (b.getD 0 []).length) ∅ []

/-- The win test `all(ship["hits"] == ship["coords"] for ship in instances)`
(`battle.py` lines 250 and 266). -/
def allSunk (l : List ShipInstance) : Bool :=
  l.all fun s => decide (s.hits = s.coords)

/-- The turn loop of `simulate_battle` (`battle.py` lines 237–275), counting
down from the move cap: each turn the active player's strategy proposes a
cell, the attack is resolved against the defender's instances, the result is
registered, and the win test runs on the defender's updated instances; the
cap expiring is a draw `(0, moves)`.  Board re-painting and logging are
display-only and omitted. -/
def battleLoop :
    ℕ → Strategy → Strategy → List ShipInstance → List ShipInstance → ℕ → ℕ →
    Except BattleError (ℕ × ℕ)
  | 0, _, _, _, _, _, movesDone => Except.ok (0, movesDone)
  | n + 1, s1, s2, i1, i2, current, movesDone =>
    if current = 1 then
      match getNextAttack s1 with
      | Except.error e => Except.error e
      | Except.ok p =>
        let r := processAttack p.1 p.2 i2
        if allSunk r.1 then Except.ok (1, movesDone + 1)
        else battleLoop n (registerAttack p.1 p.2 r.2.1 r.2.2 s1) s2 i1 r.1 2
          (movesDone + 1)
    else
      match getNextAttack s2 with
      | Except.error e => Except.error e
      | Except.ok p =>
        let r := processAttack p.1 p.2 i1
        if allSunk r.1 then Except.ok (2, movesDone + 1)
        else battleLoop n s1 (registerAttack p.1 p.2 r.2.1 r.2.2 s2) r.1 i2 1
          (movesDone + 1)

/-- `simulate_battle` (`battle.py` lines 178–275): place both boards
(`BoardSetup(height, width, ships_dict)`, so `rows = height` and
`cols = width`), extract both instance lists, build both strategies, and run
at most `width * height * 100` turns starting with `startingPlayer`.
A placement `ValueError` surfaces before any turn runs; `none` again means a
placement fuel budget ran out. -/
def simulateBattle (width height : ℕ) (counts : ℕ → ℕ) (startingPlayer : ℕ)
    (o1 o2 : PlacementOracle) (fuel1 fuel2 : ℕ) :
    Option (Except BattleError (ℕ × ℕ)) :=
  match placeShips height width counts o1 fuel1 with
  | none => none
  | some (Except.error e) => some (Except.error e)
  | some (Except.ok b1) =>
    match placeShips height width counts o2 fuel2 with
    | none => none
    | some (Except.error e) => some (Except.error e)
    | some (Except.ok b2) =>
      some (battleLoop (width * height * 100) (mkStrategy height width counts)
        (mkStrategy height width counts) (getShipInstances b1)
        (getShipInstances b2) startingPlayer 0)

/-- **C8.** Whenever the requested tile total exceeds `rows * cols`,
`place_ships` fails with `InsufficientSpace` (for every oracle, i.e. before
consulting any randomness and before writing any ship onto the board, since
the check precedes the placement loop), and `simulate_battle` surfaces that
failure before any turn runs (its result carries no winner or move count). -/
theorem insufficient_space_rejected (rows cols : ℕ) (counts : ℕ → ℕ)
    (h : totalRequired counts > rows * cols) (o : PlacementOracle) (fuel : ℕ)
    (hf : 1 ≤ fuel) (sp : ℕ) (o2 : PlacementOracle) (fuel2 : ℕ) :
    placeShips rows cols counts o fuel =
      some (Except.error BattleError.insufficientSpace) ∧
    simulateBattle cols rows counts sp o o2 fuel fuel2 =
      some (Except.error BattleError.insufficientSpace) := by
  obtain ⟨f, rfl⟩ : ∃ f, fuel = f + 1 := ⟨fuel - 1, by omega⟩
  have hplace : placeShips rows cols counts o (f + 1) =
      some (Except.error BattleError.insufficientSpace) := by
    unfold placeShips placeShipsAux
    rw [if_pos h]
  refine ⟨hplace, ?_⟩
  unfold simulateBattle
  rw [hplace]

/-- Witness for C8: one TT ship (6 tiles) on a 1×2 board. -/
theorem insufficient_space_rejected_witness :
    placeShips 1 2 (fun i => if i = 7 then 1 else 0) ⟨fun _ => [], fun _ _ => 0⟩ 1 =
      some (Except.error BattleError.insufficientSpace) ∧
    simulateBattle 2 1 (fun i => if i = 7 then 1 else 0) 1
        ⟨fun _ => [], fun _ _ => 0⟩ ⟨fun _ => [], fun _ _ => 0⟩ 1 1 =
      some (Except.error BattleError.insufficientSpace) :=
  insufficient_space_rejected 1 2 (fun i => if i = 7 then 1 else 0)
    (by decide) ⟨fun _ => [], fun _ _ => 0⟩ 1 (by decide) 1
    ⟨fun _ => [], fun _ _ => 0⟩ 1

/-- A request of exactly one TT ship: 6 tiles, which fit a 2×3 board's area
but never its 4×2 bounding box. -/
def ttCounts : ℕ → ℕ := fun i => if i = 7 then 1 else 0

lemma rotOffset_90 (d : Cell) : rotOffset 90 d = (-d.2, d.1) := rfl

lemma rotOffset_180 (d : Cell) : rotOffset 180 d = (-d.1, -d.2) := rfl

lemma rotOffset_270 (d : Cell) : rotOffset 270 d = (d.2, -d.1) := rfl

lemma rotOffset_default (deg : ℕ) (h90 : deg ≠ 90) (h180 : deg ≠ 180)
    (h270 : deg ≠ 270) (d : Cell) : rotOffset deg d = d := by
  unfold rotOffset
  rw [if_neg h90, if_neg h180, if_neg h270]

/-- The TT polyomino spans 4 cells along one axis and 2 along the other in
every orientation, so it cannot be validly placed anywhere on a 2×3 board:
its cells at offsets `(0, 1)` and `(3, 1)` cannot both be in bounds. -/
lemma tt_never_fits (b : Board) (deg : ℕ) (x y : ℤ) :
    ¬ isValidPlacement 2 3 b
      (rotateShape [(1, 0), (2, 0), (0, 1), (1, 1), (2, 1), (3, 1)] deg x y) := by
  intro h
  have key : ∀ d ∈ ([(1, 0), (2, 0), (0, 1), (1, 1), (2, 1), (3, 1)] : List Cell),
      inGrid 2 3 (x + (rotOffset deg d).1, y + (rotOffset deg d).2) := by
    intro d hd
    exact (h _ (List.mem_map.2 ⟨d, hd, rfl⟩)).1
  have k1 := key (0, 1) (by simp)
  have k2 := key (3, 1) (by simp)
  by_cases h90 : deg = 90
  · subst h90
    rw [rotOffset_90] at k1
    rw [rotOffset_90] at k2
    simp [inGrid] at k1 k2
    omega
  · by_cases h180 : deg = 180
    · subst h180
      rw [rotOffset_180] at k1
      rw [rotOffset_180] at k2
      simp [inGrid] at k1 k2
      omega
    · by_cases h270 : deg = 270
      · subst h270
        rw [rotOffset_270] at k1
        rw [rotOffset_270] at k2
        simp [inGrid] at k1 k2
        omega
      · rw [rotOffset_default deg h90 h180 h270] at k1
        rw [rotOffset_default deg h90 h180 h270] at k2
        simp [inGrid] at k1 k2
        omega

lemma tryRotations_none (rows cols : ℕ) (b : Board) (shape : List Cell)
    (x y : ℤ)
    (h : ∀ deg, ¬ isValidPlacement rows cols b (rotateShape shape deg x y)) :
    ∀ degs, tryRotations rows cols b shape x y degs = none := by
  intro degs
  induction degs with
  | nil => rfl
  | cons deg rest ih =>
    unfold tryRotations
    rw [if_neg (fun hh => h deg hh.2)]
    exact ih

lemma findSpot_none (rows cols : ℕ) (b : Board) (shape : List Cell)
    (h : ∀ x y deg, ¬ isValidPlacement rows cols b (rotateShape shape deg x y)) :
    ∀ ps, findSpot rows cols b shape ps = none := by
  intro ps
  induction ps with
  | nil => rfl
  | cons p rest ih =>
    unfold findSpot
    rw [tryRotations_none rows cols b shape p.1 p.2 (fun deg => h p.1 p.2 deg)]
    exact ih

lemma tryPlaceShip_tt_none (b : Board) (pick : ℕ) (positions : List Cell) :
    tryPlaceShip 2 3 b 7 pick positions = none := by
  unfold tryPlaceShip
  rw [if_neg (by decide : ¬ (7 : ℕ) = 5)]
  rw [show generateShape (specShape 7) (specSize 7) pick =
    [(1, 0), (2, 0), (0, 1), (1, 1), (2, 1), (3, 1)] from rfl]
  rw [if_neg (by simp : ¬ ([(1, 0), (2, 0), (0, 1), (1, 1), (2, 1), (3, 1)] :
    List Cell) = [])]
  rw [findSpot_none 2 3 b _ (fun x y deg => tt_never_fits b deg x y) positions]

lemma placeShipsAux_tt_none :
    ∀ (fuel : ℕ) (o : PlacementOracle) (round : ℕ),
      placeShipsAux 2 3 ttCounts o fuel round = none := by
  intro fuel
  induction fuel with
  | zero => intro o round; rfl
  | succ f ih =>
    intro o round
    unfold placeShipsAux
    rw [if_neg (by decide : ¬ totalRequired ttCounts > 2 * 3)]
    rw [show expandCounts ttCounts = [7] from rfl]
    unfold placeSeq
    rw [tryPlaceShip_tt_none (emptyBoard 2 3) (o.pick round 0) (o.shuffle round)]
    exact ih o (round + 1)

/-- **C9** (the spec-flagged bug in the reference code): `place_ships` has no
retry cap and no `PlacementExhausted` failure — on a 2×3 board with one
requested TT ship (6 tiles ≤ 6 cells, so the space check passes) no anchor
and rotation is ever valid, so the code clears the board and recurses
forever.  In the fuel model: for every fuel budget and every oracle the run
neither succeeds nor raises, it just exhausts the budget. -/
theorem placement_recursion_unbounded :
    totalRequired ttCounts ≤ 2 * 3 ∧
    ∀ (fuel : ℕ) (o : PlacementOracle), placeShips 2 3 ttCounts o fuel = none :=
  ⟨by decide, fun fuel o => placeShipsAux_tt_none fuel o 0⟩

lemma getD_replicate_self {α : Type} (n i : ℕ) (a d : α) :
    (List.replicate n a).getD i d = if i < n then a else d := by
  rcases Nat.lt_or_ge i n with h | h
  · rw [listGetD_lt _ _ _ (by rw [List.length_replicate]; exact h),
      List.getElem_replicate, if_pos h]
  · rw [listGetD_ge _ _ _ (by rw [List.length_replicate]; exact h), if_neg (by omega)]

lemma cellAt_emptyBoard (rows cols : ℕ) (p : Cell) :
    cellAt (emptyBoard rows cols) p = 0 := by
  unfold cellAt read2D emptyBoard
  split
  · rw [getD_replicate_self]
    split
    · rw [getD_replicate_self]
      split <;> rfl
    · rfl
  · rfl

lemma probAt_mkStrategy (rows cols : ℕ) (d : ℕ → ℕ) (p : Cell)
    (hp : inGrid rows cols p) : probAt (mkStrategy rows cols d) p = 1 := by
  obtain ⟨h1, h2, h3, h4⟩ := hp
  have hmap : (mkStrategy rows cols d).probabilityMap =
      List.replicate rows (List.replicate cols (1 : ℚ)) := rfl
  unfold probAt read2D
  rw [hmap, if_pos ⟨h1, h3⟩, getD_replicate_self, if_pos (by omega),
    getD_replicate_self, if_pos (by omega)]

lemma extractGo_zero (b : Board) (rows cols : ℕ) (h : ∀ p, cellAt b p = 0) :
    ∀ (ps : List Cell) (visited : Finset Cell) (acc : List ShipInstance),
      extractGo b rows cols ps visited acc = acc := by
  intro ps
  induction ps with
  | nil => intro visited acc; rfl
  | cons p rest ih =>
    intro visited acc
    unfold extractGo
    rw [if_neg (fun hh => hh.1 (h p))]
    exact ih visited acc

lemma getShipInstances_empty (rows cols : ℕ) :
    getShipInstances (emptyBoard rows cols) = [] := by
  unfold getShipInstances
  exact extractGo_zero _ _ _ (cellAt_emptyBoard rows cols) _ _ _

lemma placeShips_zero (rows cols : ℕ) (o : PlacementOracle) (f : ℕ) :
    placeShips rows cols (fun _ => 0) o (f + 1) =
      some (Except.ok (emptyBoard rows cols)) := by
  have ht : totalRequired (fun _ => 0) = 0 := rfl
  unfold placeShips placeShipsAux
  rw [if_neg (by omega : ¬ totalRequired (fun _ => 0) > rows * cols)]
  rfl

lemma battleLoop_zero (rows cols : ℕ) (c : ℕ → ℕ) (hr : 1 ≤ rows)
    (hc : 1 ≤ cols) (n movesDone current : ℕ) (hcur : current = 1 ∨ current = 2) :
    battleLoop (n + 1) (mkStrategy rows cols c) (mkStrategy rows cols c) [] []
      current movesDone = Except.ok (current, movesDone + 1) := by
  have hex0 : inGrid rows cols ((0 : ℤ), (0 : ℤ)) := by
    refine ⟨by norm_num, ?_, by norm_num, ?_⟩
    · show (0 : ℤ) < (cols : ℤ)
      exact_mod_cast hc
    · show (0 : ℤ) < (rows : ℤ)
      exact_mod_cast hr
  obtain ⟨p, hok, -⟩ := getNextAttack_spec (mkStrategy rows cols c)
    (fun q hq _ => by rw [probAt_mkStrategy rows cols c q hq]; norm_num)
    ⟨((0 : ℤ), (0 : ℤ)), hex0, Finset.not_mem_empty _⟩
  rcases hcur with rfl | rfl
  · unfold battleLoop
    rw [if_pos rfl, hok]
    rfl
  · unfold battleLoop
    rw [if_neg (by decide : ¬ (2 = 1)), hok]
    rfl

/-- **C10.** With zero requested ships of every id on both sides, setup
succeeds (the space check passes with total 0 and the board stays empty),
component extraction yields no instances, and `simulate_battle` declares the
starting player the winner after exactly one move: the win test
`all(... for ship in instances)` is vacuously true over an empty instance
list, so the battle neither fails at setup nor ends in a draw. -/
theorem zero_ships_vacuous_win (rows cols : ℕ) (hr : 1 ≤ rows) (hc : 1 ≤ cols)
    (o1 o2 : PlacementOracle) (fuel1 fuel2 : ℕ) (h1 : 1 ≤ fuel1)
    (h2 : 1 ≤ fuel2) (sp : ℕ) (hsp : sp = 1 ∨ sp = 2) :
    placeShips rows cols (fun _ => 0) o1 fuel1 =
      some (Except.ok (emptyBoard rows cols)) ∧
    getShipInstances (emptyBoard rows cols) = [] ∧
    simulateBattle cols rows (fun _ => 0) sp o1 o2 fuel1 fuel2 =
      some (Except.ok (sp, 1)) := by
  obtain ⟨f1, rfl⟩ : ∃ f, fuel1 = f + 1 := ⟨fuel1 - 1, by omega⟩
  obtain ⟨f2, rfl⟩ : ∃ f, fuel2 = f + 1 := ⟨fuel2 - 1, by omega⟩
  refine ⟨placeShips_zero rows cols o1 f1, getShipInstances_empty rows cols, ?_⟩
  unfold simulateBattle
  rw [placeShips_zero rows cols o1 f1, placeShips_zero rows cols o2 f2]
  show some (battleLoop (cols * rows * 100) (mkStrategy rows cols fun _ => 0)
    (mkStrategy rows cols fun _ => 0) (getShipInstances (emptyBoard rows cols))
    (getShipInstances (emptyBoard rows cols)) sp 0) = _
  rw [getShipInstances_empty rows cols]
  have hpos : 0 < cols * rows * 100 :=
    Nat.mul_pos (Nat.mul_pos hc hr) (by norm_num)
  obtain ⟨m, hm⟩ : ∃ m, cols * rows * 100 = m + 1 :=
    ⟨cols * rows * 100 - 1, by omega⟩
  rw [hm, battleLoop_zero rows cols (fun _ => 0) hr hc m 0 sp hsp]

/-- Witness for C10: a 2×2 board with zero ships and player 1 starting wins
vacuously after one move. -/
theorem zero_ships_vacuous_win_witness :
    simulateBattle 2 2 (fun _ => 0) 1 ⟨fun _ => [], fun _ _ => 0⟩
        ⟨fun _ => [], fun _ _ => 0⟩ 1 1 = some (Except.ok (1, 1)) :=
  (zero_ships_vacuous_win 2 2 (by decide) (by decide) ⟨fun _ => [], fun _ _ => 0⟩
    ⟨fun _ => [], fun _ _ => 0⟩ 1 1 (by decide) (by decide) 1 (Or.inl rfl)).2.2

/-- Reachability between cells of a set along orthogonal adjacency, staying
inside the set. -/
def ReachIn (S : Finset Cell) : Cell → Cell → Prop :=
  Relation.ReflTransGen fun u v => u ∈ S ∧ v ∈ S ∧ adjacent u v

/-- A set of cells forming one orthogonally connected component. -/
def ConnectedCells (S : Finset Cell) : Prop :=
  ∀ p ∈ S, ∀ q ∈ S, ReachIn S p q

lemma reachIn_mono {S T : Finset Cell} (hST : S ⊆ T) {p q : Cell}
    (h : ReachIn S p q) : ReachIn T p q := by
  induction h with
  | refl => exact Relation.ReflTransGen.refl
  | tail _ hstep ih => exact ih.tail ⟨hST hstep.1, hST hstep.2.1, hstep.2.2⟩

lemma connectedCells_singleton (c : Cell) : ConnectedCells {c} := by
  intro p hp q hq
  rw [Finset.mem_singleton] at hp hq
  subst hp; subst hq
  exact Relation.ReflTransGen.refl

lemma connectedCells_insert {S : Finset Cell} (hS : ConnectedCells S) {a : Cell}
    (ha : a ∈ S) {c : Cell} (hadj : adjacent a c) :
    ConnectedCells (insert c S) := by
  have hac : ReachIn (insert c S) a c :=
    Relation.ReflTransGen.single
      ⟨Finset.mem_insert_of_mem ha, Finset.mem_insert_self _ _, hadj⟩
  have hca : ReachIn (insert c S) c a :=
    Relation.ReflTransGen.single
      ⟨Finset.mem_insert_self _ _, Finset.mem_insert_of_mem ha, adjacent_symm hadj⟩
  intro p hp q hq
  rcases Finset.mem_insert.1 hp with hpc | hp'
  · rcases Finset.mem_insert.1 hq with hqc | hq'
    · subst hpc; subst hqc
      exact Relation.ReflTransGen.refl
    · subst hpc
      exact hca.trans (reachIn_mono (Finset.subset_insert _ _) (hS a ha q hq'))
  · rcases Finset.mem_insert.1 hq with hqc | hq'
    · subst hqc
      exact (reachIn_mono (Finset.subset_insert _ _) (hS p hp' a ha)).trans hac
    · exact reachIn_mono (Finset.subset_insert _ _) (hS p hp' q hq')

/-- A growth certificate for connectivity: every cell of `rest` is adjacent
to some earlier-accepted cell. -/
def growsOkAux : List Cell → List Cell → Bool
  | _, [] => true
  | acc, c :: rest =>
    acc.any (fun a => decide (adjacent a c)) && growsOkAux (c :: acc) rest

def growsOk : List Cell → Bool
  | [] => false
  | c :: rest => growsOkAux [c] rest

lemma growsOkAux_conn :
    ∀ (rest acc : List Cell), growsOkAux acc rest = true →
      ConnectedCells acc.toFinset →
      ConnectedCells (acc.toFinset ∪ rest.toFinset) := by
  intro rest
  induction rest with
  | nil =>
    intro acc _ h
    simpa using h
  | cons c rest ih =>
    intro acc hok hconn
    unfold growsOkAux at hok
    rw [Bool.and_eq_true] at hok
    obtain ⟨hany, hrest⟩ := hok
    rw [List.any_eq_true] at hany
    obtain ⟨a, ha, hadj⟩ := hany
    rw [decide_eq_true_eq] at hadj
    have hconn' : ConnectedCells ((c :: acc).toFinset) := by
      rw [List.toFinset_cons]
      exact connectedCells_insert hconn (List.mem_toFinset.2 ha) hadj
    have := ih (c :: acc) hrest hconn'
    rw [List.toFinset_cons, Finset.insert_union] at this
    rw [List.toFinset_cons, Finset.union_insert]
    exact this

lemma growsOk_conn (l : List Cell) (h : growsOk l = true) :
    ConnectedCells l.toFinset := by
  cases l with
  | nil => exact absurd h (by decide)
  | cons c rest =>
    have := growsOkAux_conn rest [c] h (by
      rw [show ([c] : List Cell).toFinset = {c} by simp]
      exact connectedCells_singleton c)
    rw [List.toFinset_cons]
    rw [show ([c] : List Cell).toFinset = {c} by simp] at this
    rw [show ({c} : Finset Cell) ∪ rest.toFinset = insert c rest.toFinset from
      (Finset.insert_eq c rest.toFinset).symm] at this
    exact this

lemma reachIn_image {f : Cell → Cell}
    (hf : ∀ a b, adjacent a b → adjacent (f a) (f b)) {S : Finset Cell}
    {a b : Cell} (h : ReachIn S a b) : ReachIn (S.image f) (f a) (f b) := by
  induction h with
  | refl => exact Relation.ReflTransGen.refl
  | tail _ hstep ih =>
    exact ih.tail ⟨Finset.mem_image_of_mem f hstep.1,
      Finset.mem_image_of_mem f hstep.2.1, hf _ _ hstep.2.2⟩

lemma connectedCells_image {f : Cell → Cell}
    (hf : ∀ a b, adjacent a b → adjacent (f a) (f b)) {S : Finset Cell}
    (h : ConnectedCells S) : ConnectedCells (S.image f) := by
  intro p hp q hq
  obtain ⟨a, ha, rfl⟩ := Finset.mem_image.1 hp
  obtain ⟨b, hb, rfl⟩ := Finset.mem_image.1 hq
  exact reachIn_image hf (h a ha b hb)

lemma adjacent_rotCell (deg : ℕ) (x y : ℤ) (a b : Cell) (h : adjacent a b) :
    adjacent (x + (rotOffset deg a).1, y + (rotOffset deg a).2)
      (x + (rotOffset deg b).1, y + (rotOffset deg b).2) := by
  unfold adjacent at h ⊢
  simp only [List.mem_cons, List.not_mem_nil, or_false, Prod.mk.injEq] at h ⊢
  by_cases h90 : deg = 90
  · subst h90
    simp only [rotOffset_90]
    omega
  · by_cases h180 : deg = 180
    · subst h180
      simp only [rotOffset_180]
      omega
    · by_cases h270 : deg = 270
      · subst h270
        simp only [rotOffset_270]
        omega
      · rw [rotOffset_default deg h90 h180 h270, rotOffset_default deg h90 h180 h270]
        omega

lemma rotOffset_injective (deg : ℕ) {a b : Cell}
    (h : rotOffset deg a = rotOffset deg b) : a = b := by
  rcases a with ⟨a1, a2⟩
  rcases b with ⟨b1, b2⟩
  unfold rotOffset at h
  rw [Prod.mk.injEq]
  split_ifs at h <;> rw [Prod.mk.injEq] at h <;> omega

lemma mem_extractNbrs {c q : Cell}
    (h : q ∈ extractDirs.map fun d => (c.1 + d.1, c.2 + d.2)) : adjacent c q := by
  rw [List.mem_map] at h
  obtain ⟨d, hd, rfl⟩ := h
  obtain ⟨d1, d2⟩ := d
  unfold adjacent
  unfold extractDirs at hd
  simp only [List.mem_cons, List.not_mem_nil, or_false, Prod.mk.injEq] at hd ⊢
  omega

lemma adjacent_mem_extractNbrs {c q : Cell} (h : adjacent c q) :
    q ∈ extractDirs.map fun d => (c.1 + d.1, c.2 + d.2) := by
  unfold adjacent at h
  rw [List.mem_map]
  refine ⟨(q.1 - c.1, q.2 - c.2), h, ?_⟩
  rw [Prod.mk.injEq]
  constructor <;> ring

lemma floodFill_go (b : Board) (rows cols sid : ℕ) (S : Finset Cell)
    (hbound : ∀ p ∈ S, inGrid rows cols p)
    (hval : ∀ p ∈ S, cellAt b p = sid)
    (hiso : ∀ p ∈ S, ∀ q : Cell, adjacent p q → inGrid rows cols q →
      cellAt b q = sid → q ∈ S) :
    ∀ (fuel : ℕ) (stack : List Cell) (comp : Finset Cell),
      5 * (S \ comp).card + stack.length ≤ fuel →
      (∀ c ∈ stack, c ∈ S) → comp ⊆ S →
      (∀ a ∈ comp, ∀ q, adjacent a q → q ∈ S → q ∈ comp ∨ q ∈ stack) →
      comp ⊆ floodFill b rows cols sid fuel stack comp ∧
      (∀ c ∈ stack, c ∈ floodFill b rows cols sid fuel stack comp) ∧
      floodFill b rows cols sid fuel stack comp ⊆ S ∧
      (∀ a ∈ floodFill b rows cols sid fuel stack comp, ∀ q, adjacent a q →
        q ∈ S → q ∈ floodFill b rows cols sid fuel stack comp) := by
  intro fuel
  induction fuel with
  | zero =>
    intro stack comp hfuel hstack hcomp hclosed
    have hstack0 : stack = [] := List.eq_nil_of_length_eq_zero (by omega)
    subst hstack0
    refine ⟨Finset.Subset.refl _, by simp, hcomp, ?_⟩
    intro a ha q hadj hq
    rcases hclosed a ha q hadj hq with h | h
    · exact h
    · exact absurd h (List.not_mem_nil _)
  | succ fuel ih =>
    intro stack comp hfuel hstack hcomp hclosed
    cases stack with
    | nil =>
      refine ⟨Finset.Subset.refl _, by simp, hcomp, ?_⟩
      intro a ha q hadj hq
      rcases hclosed a ha q hadj hq with h | h
      · exact h
      · exact absurd h (List.not_mem_nil _)
    | cons c stack =>
      have hunfold : floodFill b rows cols sid (fuel + 1) (c :: stack) comp =
          (if c ∈ comp then floodFill b rows cols sid fuel stack comp
           else floodFill b rows cols sid fuel
             ((((extractDirs.map fun d => (c.1 + d.1, c.2 + d.2)).filter fun q =>
               decide (inGrid rows cols q) && decide (cellAt b q = sid) &&
                 decide (q ∉ insert c comp)).reverse) ++ stack)
             (insert c comp)) := rfl
      by_cases hc : c ∈ comp
      · have heq : floodFill b rows cols sid (fuel + 1) (c :: stack) comp =
            floodFill b rows cols sid fuel stack comp := by
          rw [hunfold, if_pos hc]
        have hstack2 : ∀ e ∈ stack, e ∈ S :=
          fun e he => hstack e (List.mem_cons_of_mem _ he)
        have hclosed2 : ∀ a ∈ comp, ∀ q, adjacent a q → q ∈ S →
            q ∈ comp ∨ q ∈ stack := by
          intro a ha q hadj hq
          rcases hclosed a ha q hadj hq with h | h
          · exact Or.inl h
          · rcases List.mem_cons.1 h with rfl | h
            · exact Or.inl hc
            · exact Or.inr h
        have hlen : (c :: stack).length = stack.length + 1 := rfl
        obtain ⟨ih1, ih2, ih3, ih4⟩ := ih stack comp (by omega) hstack2 hcomp hclosed2
        rw [heq]
        refine ⟨ih1, ?_, ih3, ih4⟩
        intro e he
        rcases List.mem_cons.1 he with rfl | he
        · exact ih1 hc
        · exact ih2 e he
      · have hcS : c ∈ S := hstack c (List.mem_cons_self _ _)
        have heq : floodFill b rows cols sid (fuel + 1) (c :: stack) comp =
            floodFill b rows cols sid fuel
              ((((extractDirs.map fun d => (c.1 + d.1, c.2 + d.2)).filter fun q =>
                decide (inGrid rows cols q) && decide (cellAt b q = sid) &&
                  decide (q ∉ insert c comp)).reverse) ++ stack)
              (insert c comp) := by
          rw [hunfold, if_neg hc]
        rw [heq]
        have hPsub : ∀ q ∈ (extractDirs.map fun d => (c.1 + d.1, c.2 + d.2)).filter
            (fun q => decide (inGrid rows cols q) && decide (cellAt b q = sid) &&
              decide (q ∉ insert c comp)), q ∈ S := by
          intro q hq
          obtain ⟨hmap, hcond⟩ := List.mem_filter.1 hq
          rw [Bool.and_eq_true, Bool.and_eq_true] at hcond
          obtain ⟨⟨hcond1, hcond2⟩, -⟩ := hcond
          rw [decide_eq_true_eq] at hcond1 hcond2
          exact hiso c hcS q (mem_extractNbrs hmap) hcond1 hcond2
        have hPlen : ((extractDirs.map fun d => (c.1 + d.1, c.2 + d.2)).filter
            (fun q => decide (inGrid rows cols q) && decide (cellAt b q = sid) &&
              decide (q ∉ insert c comp))).length ≤ 4 := by
          refine (List.length_filter_le _ _).trans ?_
          rw [List.length_map]
          rfl
        have hcScomp : c ∈ S \ comp := Finset.mem_sdiff.2 ⟨hcS, hc⟩
        have hcard : (S \ insert c comp).card = (S \ comp).card - 1 := by
          rw [Finset.sdiff_insert, Finset.card_erase_of_mem hcScomp]
        have hcard1 : 1 ≤ (S \ comp).card := Finset.card_pos.2 ⟨c, hcScomp⟩
        have hstack' : ∀ e ∈ (((extractDirs.map fun d => (c.1 + d.1, c.2 + d.2)).filter
            (fun q => decide (inGrid rows cols q) && decide (cellAt b q = sid) &&
              decide (q ∉ insert c comp))).reverse) ++ stack, e ∈ S := by
          intro e he
          rcases List.mem_append.1 he with he | he
          · exact hPsub e (List.mem_reverse.1 he)
          · exact hstack e (List.mem_cons_of_mem _ he)
        have hcomp' : insert c comp ⊆ S := Finset.insert_subset hcS hcomp
        have hclosed' : ∀ a ∈ insert c comp, ∀ q, adjacent a q → q ∈ S →
            q ∈ insert c comp ∨
            q ∈ (((extractDirs.map fun d => (c.1 + d.1, c.2 + d.2)).filter
              (fun q => decide (inGrid rows cols q) && decide (cellAt b q = sid) &&
                decide (q ∉ insert c comp))).reverse) ++ stack := by
          intro a ha q hadj hq
          rcases Finset.mem_insert.1 ha with rfl | ha
          · by_cases hqc : q ∈ insert a comp
            · exact Or.inl hqc
            · refine Or.inr (List.mem_append_left _ (List.mem_reverse.2
                (List.mem_filter.2 ⟨adjacent_mem_extractNbrs hadj, ?_⟩)))
              rw [Bool.and_eq_true, Bool.and_eq_true]
              refine ⟨⟨?_, ?_⟩, ?_⟩ <;> rw [decide_eq_true_eq]
              · exact hbound q hq
              · exact hval q hq
              · exact hqc
          · rcases hclosed a ha q hadj hq with h | h
            · exact Or.inl (Finset.mem_insert_of_mem h)
            · rcases List.mem_cons.1 h with rfl | h
              · exact Or.inl (Finset.mem_insert_self _ _)
              · exact Or.inr (List.mem_append_right _ h)
        have hfuel' : 5 * (S \ insert c comp).card +
            ((((extractDirs.map fun d => (c.1 + d.1, c.2 + d.2)).filter
              (fun q => decide (inGrid rows cols q) && decide (cellAt b q = sid) &&
                decide (q ∉ insert c comp))).reverse) ++ stack).length ≤ fuel := by
          rw [List.length_append, List.length_reverse, hcard]
          have : (c :: stack).length = stack.length + 1 := rfl
          omega
        obtain ⟨ih1, ih2, ih3, ih4⟩ := ih _ _ hfuel' hstack' hcomp' hclosed'
        refine ⟨(Finset.subset_insert c comp).trans ih1, ?_, ih3, ih4⟩
        intro e he
        rcases List.mem_cons.1 he with rfl | he
        · exact ih1 (Finset.mem_insert_self _ _)
        · exact ih2 e (List.mem_append_right _ he)

theorem floodFill_eq (b : Board) (rows cols sid : ℕ) (S : Finset Cell)
    (hbound : ∀ p ∈ S, inGrid rows cols p)
    (hval : ∀ p ∈ S, cellAt b p = sid)
    (hiso : ∀ p ∈ S, ∀ q : Cell, adjacent p q → inGrid rows cols q →
      cellAt b q = sid → q ∈ S)
    (hconn : ConnectedCells S) (p₀ : Cell) (hp₀ : p₀ ∈ S) (fuel : ℕ)
    (hfuel : 5 * S.card + 1 ≤ fuel) :
    floodFill b rows cols sid fuel [p₀] ∅ = S := by
  obtain ⟨h1, h2, h3, h4⟩ := floodFill_go b rows cols sid S hbound hval hiso fuel
    [p₀] ∅ (by rw [Finset.sdiff_empty]; simpa using hfuel)
    (by
      intro e he
      rw [List.mem_singleton] at he
      subst he
      exact hp₀)
    (Finset.empty_subset _)
    (by
      intro a ha
      exact absurd ha (Finset.not_mem_empty _))
  apply Finset.Subset.antisymm h3
  intro q hq
  have hp₀r := h2 p₀ (List.mem_singleton.2 rfl)
  have hreach := hconn p₀ hp₀ q hq
  clear hq
  induction hreach with
  | refl => exact hp₀r
  | tail _ hstep ihq => exact h4 _ ihq _ hstep.2.2 hstep.2.1

/-- One physically placed ship: its id and the set of board cells it
occupies. -/
structure PlacedShip where
  sid : ℕ
  cells : Finset Cell
deriving DecidableEq

/-- A well-formed placement: a real ship id, at least one cell, all cells in
bounds, forming one connected component. -/
structure GoodShip (rows cols : ℕ) (P : PlacedShip) : Prop where
  sid_ne : P.sid ≠ 0
  nonempty : P.cells.Nonempty
  bounds : ∀ p ∈ P.cells, inGrid rows cols p
  conn : ConnectedCells P.cells

/-- Two placements that neither overlap nor touch orthogonally — the
invariant `_is_valid_placement` enforces between distinct ships. -/
def Separated (P Q : PlacedShip) : Prop :=
  ∀ p ∈ P.cells, ∀ q ∈ Q.cells, p ≠ q ∧ ¬ adjacent p q

lemma separated_symm : Symmetric Separated := by
  intro P Q h q hq p hp
  obtain ⟨h1, h2⟩ := h p hp q hq
  exact ⟨h1.symm, fun hadj => h2 (adjacent_symm hadj)⟩

def unionCells : List PlacedShip → Finset Cell
  | [] => ∅
  | P :: rest => P.cells ∪ unionCells rest

lemma mem_unionCells {p : Cell} :
    ∀ {F : List PlacedShip}, p ∈ unionCells F ↔ ∃ P ∈ F, p ∈ P.cells := by
  intro F
  induction F with
  | nil => simp [unionCells]
  | cons P rest ih =>
    simp only [unionCells, Finset.mem_union, ih, List.mem_cons]
    constructor
    · rintro (h | ⟨Q, hQ, hq⟩)
      · exact ⟨P, Or.inl rfl, h⟩
      · exact ⟨Q, Or.inr hQ, hq⟩
    · rintro ⟨Q, rfl | hQ, hq⟩
      · exact Or.inl hq
      · exact Or.inr ⟨Q, hQ, hq⟩

lemma unionCells_append (F G : List PlacedShip) :
    unionCells (F ++ G) = unionCells F ∪ unionCells G := by
  induction F with
  | nil => simp [unionCells]
  | cons P rest ih =>
    show P.cells ∪ unionCells (rest ++ G) =
      P.cells ∪ unionCells rest ∪ unionCells G
    rw [ih, Finset.union_assoc]

/-- The board `b` consists of exactly the placements `PL`: well-formed,
pairwise separated ships whose cells carry their id, with water everywhere
else. -/
structure BoardRep (b : Board) (rows cols : ℕ) (PL : List PlacedShip) : Prop where
  rect : Rect b rows cols
  good : ∀ P ∈ PL, GoodShip rows cols P
  sep : List.Pairwise Separated PL
  val : ∀ P ∈ PL, ∀ p ∈ P.cells, cellAt b p = P.sid
  zero : ∀ p : Cell, (∀ P ∈ PL, p ∉ P.cells) → cellAt b p = 0

/-- The instance dict `get_ship_instances` builds from one component. -/
def toInst (P : PlacedShip) : ShipInstance := ⟨P.sid, P.cells, ∅⟩

lemma boardRep_nodup {b : Board} {rows cols : ℕ} {PL : List PlacedShip}
    (h : BoardRep b rows cols PL) : PL.Nodup := by
  refine List.Pairwise.imp_of_mem ?_ h.sep
  intro P Q hP hQ hsep
  intro hPQ
  subst hPQ
  obtain ⟨p, hp⟩ := (h.good P hP).nonempty
  exact (hsep p hp p hp).1 rfl

lemma boardRep_sep_forall {b : Board} {rows cols : ℕ} {PL : List PlacedShip}
    (h : BoardRep b rows cols PL) :
    ∀ P ∈ PL, ∀ Q ∈ PL, P ≠ Q → Separated P Q :=
  fun _ hP _ hQ hne => List.Pairwise.forall separated_symm h.sep hP hQ hne

lemma length_rowMajor (rows cols : ℕ) : (rowMajor rows cols).length = rows * cols := by
  unfold rowMajor
  rw [List.length_flatten, List.map_map]
  have hrepl : ((List.range rows).map
      (List.length ∘ fun (y : ℕ) => rowCells cols (y : ℤ))) =
      List.replicate rows cols := by
    refine List.eq_replicate_iff.2 ⟨?_, ?_⟩
    · rw [List.length_map, List.length_range]
    · intro a ha
      rw [List.mem_map] at ha
      obtain ⟨y, -, rfl⟩ := ha
      show (rowCells cols (y : ℤ)).length = cols
      unfold rowCells
      rw [List.length_map, List.length_range]
  rw [hrepl, List.sum_replicate, smul_eq_mul]

lemma card_le_of_inGrid {rows cols : ℕ} {S : Finset Cell}
    (h : ∀ p ∈ S, inGrid rows cols p) : S.card ≤ rows * cols := by
  have hsub : S ⊆ (rowMajor rows cols).toFinset := by
    intro p hp
    rw [List.mem_toFinset, mem_rowMajor]
    exact h p hp
  calc S.card ≤ (rowMajor rows cols).toFinset.card := Finset.card_le_card hsub
    _ ≤ (rowMajor rows cols).length := (rowMajor rows cols).toFinset_card_le
    _ = rows * cols := length_rowMajor rows cols

/-- On a represented board, the flood fill's push guard keeps it inside the
placement of the start cell: any in-bounds neighbour of a placement cell
that carries the same id belongs to the same placement. -/
lemma boardRep_iso {b : Board} {rows cols : ℕ} {PL : List PlacedShip}
    (h : BoardRep b rows cols PL) {P : PlacedShip} (hP : P ∈ PL) :
    ∀ p ∈ P.cells, ∀ q : Cell, adjacent p q → inGrid rows cols q →
      cellAt b q = P.sid → q ∈ P.cells := by
  intro p hp q hadj _ hqval
  by_contra hqP
  by_cases hq : ∀ Q ∈ PL, q ∉ Q.cells
  · rw [h.zero q hq] at hqval
    exact (h.good P hP).sid_ne hqval.symm
  · push_neg at hq
    obtain ⟨Q, hQ, hqQ⟩ := hq
    have hne : P ≠ Q := fun hh => hqP (hh ▸ hqQ)
    exact (boardRep_sep_forall h P hP Q hQ hne p hp q hqQ).2 hadj

/-- The flood fill started at any cell of a placement recovers exactly that
placement's cell set. -/
lemma floodFill_on_rep {b : Board} {rows cols : ℕ} {PL : List PlacedShip}
    (h : BoardRep b rows cols PL) {P : PlacedShip} (hP : P ∈ PL) {p : Cell}
    (hp : p ∈ P.cells) :
    floodFill b rows cols (cellAt b p) (5 * rows * cols + 1) [p] ∅ = P.cells := by
  have hsval : ∀ q ∈ P.cells, cellAt b q = cellAt b p := by
    intro q hq
    rw [h.val P hP q hq, h.val P hP p hp]
  apply floodFill_eq b rows cols (cellAt b p) P.cells (h.good P hP).bounds hsval
  · intro r hr q hadj hqg hqv
    exact boardRep_iso h hP r hr q hadj hqg
      (by rw [hqv, h.val P hP p hp])
  · exact (h.good P hP).conn
  · exact hp
  · have hcard := card_le_of_inGrid (h.good P hP).bounds
    have h5 : 5 * P.cells.card ≤ 5 * (rows * cols) :=
      Nat.mul_le_mul_left 5 hcard
    rw [Nat.mul_assoc]
    omega

lemma extractGo_spec {b : Board} {rows cols : ℕ} {PL : List PlacedShip}
    (hrep : BoardRep b rows cols PL) :
    ∀ (ps : List Cell) (F G : List PlacedShip) (acc : List ShipInstance),
      PL.Perm (F ++ G) →
      (∀ Q ∈ G, ∀ q ∈ Q.cells, q ∈ ps) →
      (∀ p ∈ ps, inGrid rows cols p) →
      ∃ G', G.Perm G' ∧
        extractGo b rows cols ps (unionCells F) acc = acc ++ G'.map toInst := by
  intro ps
  induction ps with
  | nil =>
    intro F G acc hperm hG _
    have hGnil : G = [] := by
      cases G with
      | nil => rfl
      | cons Q rest =>
        obtain ⟨q, hq⟩ := (hrep.good Q (hperm.symm.subset
          (List.mem_append_right F (List.mem_cons_self _ _)))).nonempty
        exact absurd (hG Q (List.mem_cons_self _ _) q hq) (List.not_mem_nil _)
    subst hGnil
    exact ⟨[], List.Perm.refl _, by simp [extractGo]⟩
  | cons p ps ih =>
    intro F G acc hperm hG hbnd
    have hFGnodup : (F ++ G).Nodup := hperm.nodup_iff.1 (boardRep_nodup hrep)
    by_cases hcase : cellAt b p ≠ 0 ∧ p ∉ unionCells F
    · obtain ⟨hpz, hpF⟩ := hcase
      have hpin : ∃ P ∈ PL, p ∈ P.cells := by
        by_contra hno
        push_neg at hno
        exact hpz (hrep.zero p hno)
      obtain ⟨P, hPmem, hpP⟩ := hpin
      have hPG : P ∈ G := by
        rcases List.mem_append.1 (hperm.subset hPmem) with hF | hG'
        · exact absurd (mem_unionCells.2 ⟨P, hF, hpP⟩) hpF
        · exact hG'
      have hflood := floodFill_on_rep hrep hPmem hpP
      have heq : extractGo b rows cols (p :: ps) (unionCells F) acc =
          extractGo b rows cols ps
            (unionCells F ∪ floodFill b rows cols (cellAt b p)
              (5 * rows * cols + 1) [p] ∅)
            (acc ++ [⟨cellAt b p, floodFill b rows cols (cellAt b p)
              (5 * rows * cols + 1) [p] ∅, ∅⟩]) := by
        rw [show extractGo b rows cols (p :: ps) (unionCells F) acc =
          (if cellAt b p ≠ 0 ∧ p ∉ unionCells F then
            extractGo b rows cols ps
              (unionCells F ∪ floodFill b rows cols (cellAt b p)
                (5 * rows * cols + 1) [p] ∅)
              (acc ++ [⟨cellAt b p, floodFill b rows cols (cellAt b p)
                (5 * rows * cols + 1) [p] ∅, ∅⟩])
          else extractGo b rows cols ps (unionCells F) acc) from rfl]
        rw [if_pos ⟨hpz, hpF⟩]
      rw [heq, hflood]
      have hinst : (⟨cellAt b p, P.cells, ∅⟩ : ShipInstance) = toInst P := by
        unfold toInst
        rw [hrep.val P hPmem p hpP]
      rw [hinst]
      have hvis : unionCells F ∪ P.cells = unionCells (F ++ [P]) := by
        rw [unionCells_append]
        simp [unionCells]
      rw [hvis]
      have hGnodup : G.Nodup := (List.nodup_append.1 hFGnodup).2.1
      have hperm' : PL.Perm ((F ++ [P]) ++ G.erase P) := by
        refine hperm.trans ?_
        rw [← List.append_cons]
        exact List.Perm.append_left F (List.perm_cons_erase hPG)
      have hG' : ∀ Q ∈ G.erase P, ∀ q ∈ Q.cells, q ∈ ps := by
        intro Q hQ q hq
        obtain ⟨hQne, hQG⟩ := (List.Nodup.mem_erase_iff hGnodup).1 hQ
        have hq' := hG Q hQG q hq
        rcases List.mem_cons.1 hq' with hqp | hq'
        · exfalso
          have hQPL : Q ∈ PL := hperm.symm.subset (List.mem_append_right F hQG)
          exact (boardRep_sep_forall hrep Q hQPL P hPmem hQne q hq p hpP).1 hqp
        · exact hq'
      obtain ⟨G₂, hG₂perm, hres⟩ := ih (F ++ [P]) (G.erase P)
        (acc ++ [toInst P]) hperm' hG'
        (fun r hr => hbnd r (List.mem_cons_of_mem _ hr))
      refine ⟨P :: G₂, ?_, ?_⟩
      · exact (List.perm_cons_erase hPG).trans (List.Perm.cons P hG₂perm)
      · rw [hres, List.map_cons, List.append_assoc]
        rfl
    · have heq : extractGo b rows cols (p :: ps) (unionCells F) acc =
          extractGo b rows cols ps (unionCells F) acc := by
        rw [show extractGo b rows cols (p :: ps) (unionCells F) acc =
          (if cellAt b p ≠ 0 ∧ p ∉ unionCells F then
            extractGo b rows cols ps
              (unionCells F ∪ floodFill b rows cols (cellAt b p)
                (5 * rows * cols + 1) [p] ∅)
              (acc ++ [⟨cellAt b p, floodFill b rows cols (cellAt b p)
                (5 * rows * cols + 1) [p] ∅, ∅⟩])
          else extractGo b rows cols ps (unionCells F) acc) from rfl]
        rw [if_neg hcase]
      rw [heq]
      refine ih F G acc hperm ?_ (fun r hr => hbnd r (List.mem_cons_of_mem _ hr))
      intro Q hQG q hq
      have hq' := hG Q hQG q hq
      rcases List.mem_cons.1 hq' with rfl | hq'
      · exfalso
        have hQPL : Q ∈ PL := hperm.symm.subset (List.mem_append_right F hQG)
        rcases Decidable.not_and_iff_or_not.1 hcase with hz | hvF
        · rw [Decidable.not_not] at hz
          rw [hrep.val Q hQPL q hq] at hz
          exact (hrep.good Q hQPL).sid_ne hz
        · rw [Decidable.not_not] at hvF
          obtain ⟨Pf, hPfF, hqPf⟩ := mem_unionCells.1 hvF
          have hPfPL : Pf ∈ PL := hperm.symm.subset (List.mem_append_left G hPfF)
          have hne : Q ≠ Pf := by
            intro hh
            subst hh
            exact (List.disjoint_of_nodup_append hFGnodup) hPfF hQG
          exact (boardRep_sep_forall hrep Q hQPL Pf hPfPL hne q hq q hqPf).1 rfl
      · exact hq'

/-- `get_ship_instances` on a represented board returns exactly one instance
per placement (a permutation of them, in scan order), each carrying the
placement's id and cells and an empty hit set. -/
lemma extract_of_boardRep {b : Board} {rows cols : ℕ} {PL : List PlacedShip}
    (hrep : BoardRep b rows cols PL) :
    (getShipInstances b).Perm (PL.map toInst) := by
  have hrows : b.length = rows := hrep.rect.1
  by_cases hr0 : rows = 0
  · have hPL : PL = [] := by
      cases PL with
      | nil => rfl
      | cons P rest =>
        obtain ⟨p, hp⟩ := (hrep.good P (List.mem_cons_self _ _)).nonempty
        obtain ⟨-, -, h3, h4⟩ := (hrep.good P (List.mem_cons_self _ _)).bounds p hp
        rw [hr0] at h4
        exfalso
        omega
    subst hPL
    unfold getShipInstances
    have hb0 : b.length = 0 := by rw [hrows, hr0]
    rw [show rowMajor b.length (b.getD 0 []).length = [] from by rw [hb0]; rfl]
    exact List.Perm.refl _
  · have hcols : (b.getD 0 []).length = cols := by
      have h0 : 0 < b.length := by omega
      rw [listGetD_lt _ _ _ h0]
      exact hrep.rect.2 _ (b.getElem_mem h0)
    unfold getShipInstances
    rw [hrows, hcols]
    obtain ⟨G', hG'perm, hres⟩ := extractGo_spec hrep (rowMajor rows cols) [] PL []
      (by simp)
      (fun Q hQ q hq => mem_rowMajor.2 ((hrep.good Q hQ).bounds q hq))
      (fun p hp => mem_rowMajor.1 hp)
    rw [show unionCells [] = ∅ from rfl] at hres
    rw [hres, List.nil_append]
    exact (hG'perm.map toInst).symm

lemma rect_writeCells {b : Board} {rows cols : ℕ} (hrect : Rect b rows cols)
    (sid : ℕ) : ∀ cells : List Cell, Rect (writeCells b sid cells) rows cols := by
  suffices h : ∀ (cells : List Cell) (b0 : Board), Rect b0 rows cols →
      Rect (writeCells b0 sid cells) rows cols from fun cells => h cells b hrect
  intro cells
  induction cells with
  | nil => intro b0 h; exact h
  | cons c rest ih =>
    intro b0 h
    exact ih (set2D b0 c sid) (rect_set2D h c sid)

lemma cellAt_writeCells {rows cols : ℕ} (sid : ℕ) :
    ∀ (cells : List Cell) (b : Board), Rect b rows cols →
      (∀ p ∈ cells, inGrid rows cols p) → ∀ q : Cell,
      cellAt (writeCells b sid cells) q = if q ∈ cells then sid else cellAt b q := by
  intro cells
  induction cells with
  | nil =>
    intro b _ _ q
    rw [if_neg (List.not_mem_nil q)]
    rfl
  | cons c rest ih =>
    intro b hrect hbnd q
    show cellAt (writeCells (set2D b c sid) sid rest) q = _
    rw [ih (set2D b c sid) (rect_set2D hrect c sid)
      (fun p hp => hbnd p (List.mem_cons_of_mem _ hp)) q]
    rw [cellAt_set2D hrect (hbnd c (List.mem_cons_self _ _)) sid q]
    by_cases hqr : q ∈ rest
    · rw [if_pos hqr, if_pos (List.mem_cons_of_mem _ hqr)]
    · rw [if_neg hqr]
      by_cases hqc : q = c
      · rw [if_pos hqc, if_pos (by rw [hqc]; exact List.mem_cons_self _ _)]
      · rw [if_neg hqc, if_neg]
        intro hh
        rcases List.mem_cons.1 hh with hh | hh
        · exact hqc hh
        · exact hqr hh

lemma boardRep_extend {b : Board} {rows cols : ℕ} {PL : List PlacedShip}
    (hrep : BoardRep b rows cols PL) {cells : List Cell}
    (hvalid : isValidPlacement rows cols b cells) (hne : cells ≠ [])
    (hnd : cells.Nodup) (hconn : ConnectedCells cells.toFinset) {sid : ℕ}
    (hsid : sid ≠ 0) :
    BoardRep (writeCells b sid cells) rows cols
      (PL ++ [⟨sid, cells.toFinset⟩]) := by
  have hbnd : ∀ p ∈ cells, inGrid rows cols p := fun p hp => (hvalid p hp).1
  have hwc := cellAt_writeCells sid cells b hrep.rect hbnd
  have hold : ∀ P ∈ PL, ∀ p ∈ P.cells, p ∉ cells := by
    intro P hP p hp hpc
    have h0 := (hvalid p hpc).2.1
    rw [hrep.val P hP p hp] at h0
    exact (hrep.good P hP).sid_ne h0
  refine ⟨rect_writeCells hrep.rect sid cells, ?_, ?_, ?_, ?_⟩
  · intro P hP
    rcases List.mem_append.1 hP with hP | hP
    · exact hrep.good P hP
    · rw [List.mem_singleton] at hP
      subst hP
      refine ⟨hsid, ?_, ?_, hconn⟩
      · obtain ⟨c, hc⟩ := List.exists_mem_of_ne_nil _ hne
        exact ⟨c, List.mem_toFinset.2 hc⟩
      · intro p hp
        exact hbnd p (List.mem_toFinset.1 hp)
  · rw [List.pairwise_append]
    refine ⟨hrep.sep, List.pairwise_singleton _ _, ?_⟩
    intro P hP Q hQ
    rw [List.mem_singleton] at hQ
    subst hQ
    intro p hp q hq
    have hqc := List.mem_toFinset.1 hq
    refine ⟨?_, ?_⟩
    · intro hh
      exact hold P hP p hp (hh ▸ hqc)
    · intro hadj
      have hoff : (p.1 - q.1, p.2 - q.2) ∈ setupDirs :=
        offset_mem_strategyDirs_iff.2 (adjacent_symm hadj)
      have := (hvalid q hqc).2.2 (p.1 - q.1, p.2 - q.2) hoff
      have hqp : (q.1 + (p.1 - q.1), q.2 + (p.2 - q.2)) = p := by
        rw [Prod.mk.injEq]
        constructor <;> ring
      rw [hqp] at this
      have h0 := this ((hrep.good P hP).bounds p hp)
      rw [hrep.val P hP p hp] at h0
      exact (hrep.good P hP).sid_ne h0
  · intro P hP p hp
    rcases List.mem_append.1 hP with hP | hP
    · rw [hwc p, if_neg (hold P hP p hp)]
      exact hrep.val P hP p hp
    · rw [List.mem_singleton] at hP
      subst hP
      rw [hwc p, if_pos (List.mem_toFinset.1 hp)]
  · intro p hout
    have hpc : p ∉ cells := by
      intro hpc
      exact hout ⟨sid, cells.toFinset⟩ (List.mem_append_right _
        (List.mem_singleton.2 rfl)) (List.mem_toFinset.2 hpc)
    rw [hwc p, if_neg hpc]
    exact hrep.zero p fun P hP =>
      hout P (List.mem_append_left _ hP)

/-- The shape invariants `_try_place_ship` relies on: non-empty, duplicate
free, of the catalog size, and connected. -/
def ShapeOk (sid : ℕ) (shape : List Cell) : Prop :=
  shape ≠ [] ∧ shape.Nodup ∧ shape.length = specSize sid ∧
    ConnectedCells shape.toFinset

lemma genShape_ok (sid : ℕ) (hsid : sid ∈ shipIdsBySize) (pick : ℕ) :
    ShapeOk sid (if sid = 5 then generateLShape pick
      else generateShape (specShape sid) (specSize sid) pick) := by
  unfold ShapeOk
  unfold shipIdsBySize at hsid
  simp only [List.mem_cons, List.not_mem_nil, or_false] at hsid
  rcases hsid with rfl | rfl | rfl | rfl | rfl | rfl | rfl
  · rw [if_neg (by decide : ¬ (7 : ℕ) = 5),
      show generateShape (specShape 7) (specSize 7) pick =
        [(1, 0), (2, 0), (0, 1), (1, 1), (2, 1), (3, 1)] from rfl]
    refine ⟨by decide, by decide, by decide, ?_⟩
    have h1 := growsOk_conn [(1, 0), (1, 1), (0, 1), (2, 1), (2, 0), (3, 1)]
      (by decide)
    have h2 : (([(1, 0), (1, 1), (0, 1), (2, 1), (2, 0), (3, 1)] : List Cell)).toFinset
        = (([(1, 0), (2, 0), (0, 1), (1, 1), (2, 1), (3, 1)] : List Cell)).toFinset := by
      decide
    rw [h2] at h1
    exact h1
  · rw [if_neg (by decide : ¬ (3 : ℕ) = 5),
      show generateShape (specShape 3) (specSize 3) pick =
        [(0, 0), (1, 0), (2, 0), (3, 0)] from rfl]
    exact ⟨by decide, by decide, by decide, growsOk_conn _ (by decide)⟩
  · rw [if_neg (by decide : ¬ (4 : ℕ) = 5),
      show generateShape (specShape 4) (specSize 4) pick =
        [(0, 0), (1, 0), (2, 0), (1, 1)] from rfl]
    exact ⟨by decide, by decide, by decide, growsOk_conn _ (by decide)⟩
  · rw [if_pos rfl]
    have h4 : pick % 4 = 0 ∨ pick % 4 = 1 ∨ pick % 4 = 2 ∨ pick % 4 = 3 := by omega
    unfold generateLShape chooseFrom
    rw [show lVariants.length = 4 from rfl]
    rcases h4 with h | h | h | h <;> rw [h] <;>
      exact ⟨by decide, by decide, by decide, growsOk_conn _ (by decide)⟩
  · rw [if_neg (by decide : ¬ (6 : ℕ) = 5),
      show generateShape (specShape 6) (specSize 6) pick =
        chooseFrom zVariants [] pick from rfl]
    have h2 : pick % 2 = 0 ∨ pick % 2 = 1 := by omega
    unfold chooseFrom
    rw [show zVariants.length = 2 from rfl]
    rcases h2 with h | h <;> rw [h] <;>
      exact ⟨by decide, by decide, by decide, growsOk_conn _ (by decide)⟩
  · rw [if_neg (by decide : ¬ (2 : ℕ) = 5),
      show generateShape (specShape 2) (specSize 2) pick =
        [(0, 0), (1, 0), (2, 0)] from rfl]
    exact ⟨by decide, by decide, by decide, growsOk_conn _ (by decide)⟩
  · rw [if_neg (by decide : ¬ (1 : ℕ) = 5),
      show generateShape (specShape 1) (specSize 1) pick =
        [(0, 0), (1, 0)] from rfl]
    exact ⟨by decide, by decide, by decide, growsOk_conn _ (by decide)⟩

lemma rotCell_injective (deg : ℕ) (x y : ℤ) :
    Function.Injective
      (fun d : Cell => (x + (rotOffset deg d).1, y + (rotOffset deg d).2)) := by
  intro a b h
  rw [Prod.mk.injEq] at h
  refine rotOffset_injective deg (Prod.ext ?_ ?_) <;> omega

lemma tryRotations_some {rows cols : ℕ} {b : Board} {shape : List Cell}
    {x y : ℤ} {cells : List Cell} :
    ∀ {degs : List ℕ}, tryRotations rows cols b shape x y degs = some cells →
      ∃ deg, cells = rotateShape shape deg x y ∧ cells ≠ [] ∧
        isValidPlacement rows cols b cells := by
  intro degs
  induction degs with
  | nil => intro h; cases h
  | cons deg rest ih =>
    intro h
    unfold tryRotations at h
    by_cases hc : rotateShape shape deg x y ≠ [] ∧
        isValidPlacement rows cols b (rotateShape shape deg x y)
    · rw [if_pos hc] at h
      injection h with h
      subst h
      exact ⟨deg, rfl, hc.1, hc.2⟩
    · rw [if_neg hc] at h
      exact ih h

lemma findSpot_some {rows cols : ℕ} {b : Board} {shape : List Cell}
    {cells : List Cell} :
    ∀ {ps : List Cell}, findSpot rows cols b shape ps = some cells →
      ∃ deg x y, cells = rotateShape shape deg x y ∧ cells ≠ [] ∧
        isValidPlacement rows cols b cells := by
  intro ps
  induction ps with
  | nil => intro h; cases h
  | cons p rest ih =>
    intro h
    unfold findSpot at h
    cases htr : tryRotations rows cols b shape p.1 p.2 [0, 90, 180, 270] with
    | some c =>
      rw [htr] at h
      injection h with h
      subst h
      obtain ⟨deg, hdeg, hne, hval⟩ := tryRotations_some htr
      exact ⟨deg, p.1, p.2, hdeg, hne, hval⟩
    | none =>
      rw [htr] at h
      exact ih h

lemma tryPlaceShip_some {rows cols : ℕ} {b : Board} {sid : ℕ} {pick : ℕ}
    {positions : List Cell} {b' : Board} (hsid : sid ∈ shipIdsBySize)
    (h : tryPlaceShip rows cols b sid pick positions = some b') :
    ∃ cells : List Cell, b' = writeCells b sid cells ∧
      isValidPlacement rows cols b cells ∧ cells ≠ [] ∧ cells.Nodup ∧
      cells.length = specSize sid ∧ ConnectedCells cells.toFinset := by
  obtain ⟨hne, hnd, hlen, hconn⟩ := genShape_ok sid hsid pick
  unfold tryPlaceShip at h
  rw [if_neg hne] at h
  cases hfs : findSpot rows cols b
      (if sid = 5 then generateLShape pick
        else generateShape (specShape sid) (specSize sid) pick) positions with
  | none =>
    rw [hfs] at h
    cases h
  | some cells =>
    rw [hfs] at h
    injection h with h
    obtain ⟨deg, x, y, hceq, hcne, hcval⟩ := findSpot_some hfs
    refine ⟨cells, h.symm, hcval, hcne, ?_, ?_, ?_⟩
    · rw [hceq]
      exact List.Nodup.map (rotCell_injective deg x y) hnd
    · rw [hceq]
      unfold rotateShape
      rw [List.length_map]
      exact hlen
    · rw [hceq]
      unfold rotateShape
      have hfin : ∀ (l : List Cell) (f : Cell → Cell),
          (l.map f).toFinset = l.toFinset.image f := by
        intro l f
        ext z
        simp
      rw [hfin]
      exact connectedCells_image (fun a c hadj => adjacent_rotCell deg x y a c hadj) hconn

lemma shipIdsBySize_ne_zero {i : ℕ} (h : i ∈ shipIdsBySize) : i ≠ 0 := by
  intro h0
  subst h0
  exact absurd h (by decide)

lemma placeSeq_rep {rows cols : ℕ} {pick : ℕ → ℕ} {positions : List Cell} :
    ∀ (ids : List ℕ) (k : ℕ) (b : Board) (PL : List PlacedShip) (b' : Board),
      (∀ i ∈ ids, i ∈ shipIdsBySize) →
      BoardRep b rows cols PL →
      placeSeq rows cols pick positions ids k b = some b' →
      ∃ PL', BoardRep b' rows cols (PL ++ PL') ∧
        PL'.map PlacedShip.sid = ids ∧
        (∀ P ∈ PL', P.cells.card = specSize P.sid) := by
  intro ids
  induction ids with
  | nil =>
    intro k b PL b' _ hrep h
    injection h with h
    subst h
    exact ⟨[], by simpa using hrep, rfl, by simp⟩
  | cons sid rest ih =>
    intro k b PL b' hids hrep h
    unfold placeSeq at h
    cases htp : tryPlaceShip rows cols b sid (pick k) positions with
    | none =>
      rw [htp] at h
      cases h
    | some b1 =>
      rw [htp] at h
      obtain ⟨cells, rfl, hval, hcne, hcnd, hclen, hcconn⟩ :=
        tryPlaceShip_some (hids sid (List.mem_cons_self _ _)) htp
      have hrep1 := boardRep_extend hrep hval hcne hcnd hcconn
        (shipIdsBySize_ne_zero (hids sid (List.mem_cons_self _ _)))
      obtain ⟨PL', hrep', hsids, hcards⟩ := ih (k + 1) _ _ b'
        (fun i hi => hids i (List.mem_cons_of_mem _ hi)) hrep1 h
      refine ⟨⟨sid, cells.toFinset⟩ :: PL', ?_, ?_, ?_⟩
      · rw [List.append_cons]
        exact hrep'
      · rw [List.map_cons, hsids]
      · intro P hP
        rcases List.mem_cons.1 hP with rfl | hP
        · show cells.toFinset.card = specSize sid
          rw [List.toFinset_card_of_nodup hcnd, hclen]
        · exact hcards P hP

lemma boardRep_empty (rows cols : ℕ) :
    BoardRep (emptyBoard rows cols) rows cols [] := by
  refine ⟨⟨?_, ?_⟩, by simp, List.Pairwise.nil, by simp, ?_⟩
  · exact List.length_replicate _ _
  · intro r hr
    rw [List.eq_of_mem_replicate hr]
    exact List.length_replicate _ _
  · intro p _
    exact cellAt_emptyBoard rows cols p

lemma mem_expandCounts {counts : ℕ → ℕ} {i : ℕ} (h : i ∈ expandCounts counts) :
    i ∈ shipIdsBySize := by
  unfold expandCounts at h
  rw [List.mem_flatten] at h
  obtain ⟨l, hl, hi⟩ := h
  rw [List.mem_map] at hl
  obtain ⟨j, hj, rfl⟩ := hl
  rw [List.eq_of_mem_replicate hi]
  exact hj

lemma length_expandCounts (counts : ℕ → ℕ) :
    (expandCounts counts).length = sumCounts counts := by
  unfold expandCounts shipIdsBySize sumCounts
  simp [List.length_flatten]
  omega

lemma placeShips_rep {rows cols : ℕ} {counts : ℕ → ℕ} {o : PlacementOracle} :
    ∀ (fuel round : ℕ) (b : Board),
      placeShipsAux rows cols counts o fuel round = some (Except.ok b) →
      ∃ PL, BoardRep b rows cols PL ∧
        PL.map PlacedShip.sid = expandCounts counts ∧
        (∀ P ∈ PL, P.cells.card = specSize P.sid) := by
  intro fuel
  induction fuel with
  | zero =>
    intro round b h
    cases h
  | succ f ih =>
    intro round b h
    unfold placeShipsAux at h
    by_cases hsp : totalRequired counts > rows * cols
    · rw [if_pos hsp] at h
      exact absurd h (by simp)
    · rw [if_neg hsp] at h
      cases hps : placeSeq rows cols (o.pick round) (o.shuffle round)
          (expandCounts counts) 0 (emptyBoard rows cols) with
      | some b0 =>
        rw [hps] at h
        have hb : b0 = b := by
          injection h with h
          injection h
        subst hb
        obtain ⟨PL, hrep, hsids, hcards⟩ := placeSeq_rep (expandCounts counts) 0
          (emptyBoard rows cols) [] b0 (fun i hi => mem_expandCounts hi)
          (boardRep_empty rows cols) hps
        rw [List.nil_append] at hrep
        exact ⟨PL, hrep, hsids, hcards⟩
      | none =>
        rw [hps] at h
        exact ih (round + 1) b h

/-- **C2.** Any successful run of `place_ships` (any oracle, any fuel) under
the space bound, followed by `get_ship_instances`, yields exactly
`sum(ship_counts.values())` ship instances, and each instance's `coords` has
exactly the catalog tile count of its ship id (ID1:2, ID2:3, ID3:4, ID4:4,
ID5:4, ID6:4, ID7:6, which is `specSize`). -/
theorem placement_extraction_counts (rows cols : ℕ) (counts : ℕ → ℕ)
    (htotal : totalRequired counts ≤ rows * cols) (o : PlacementOracle)
    (fuel : ℕ) (b : Board)
    (hok : placeShips rows cols counts o fuel = some (Except.ok b)) :
    (getShipInstances b).length = sumCounts counts ∧
    (∀ inst ∈ getShipInstances b, inst.coords.card = specSize inst.shipId) := by
  obtain ⟨PL, hrep, hsids, hcards⟩ := placeShips_rep fuel 0 b hok
  have hperm := extract_of_boardRep hrep
  constructor
  · rw [hperm.length_eq, List.length_map,
      show PL.length = (PL.map PlacedShip.sid).length from
        (List.length_map _ _).symm,
      hsids, length_expandCounts]
  · intro inst hinst
    have hmem := hperm.subset hinst
    rw [List.mem_map] at hmem
    obtain ⟨P, hP, rfl⟩ := hmem
    exact hcards P hP

/-- Witness for C2: one 2-tile I-ship on a 2×2 board, with a row-major
"shuffle" oracle, places at the top row, and extraction finds one instance
of 2 cells. -/
theorem placement_extraction_counts_witness :
    (getShipInstances [[1, 1], [0, 0]]).length =
      sumCounts (fun i => if i = 1 then 1 else 0) ∧
    (∀ inst ∈ getShipInstances [[1, 1], [0, 0]],
      inst.coords.card = specSize inst.shipId) :=
  placement_extraction_counts 2 2 (fun i => if i = 1 then 1 else 0) (by decide)
    ⟨fun _ => rowMajor 2 2, fun _ _ => 0⟩ 1 [[1, 1], [0, 0]] (by rfl)

/-- **C3.** On any board produced by a successful `place_ships`, every
extracted instance's cell is in bounds and any two distinct instances
neither overlap nor contain orthogonally adjacent cells. -/
theorem placement_separation (rows cols : ℕ) (counts : ℕ → ℕ)
    (o : PlacementOracle) (fuel : ℕ) (b : Board)
    (hok : placeShips rows cols counts o fuel = some (Except.ok b)) :
    (∀ inst ∈ getShipInstances b, ∀ p ∈ inst.coords, inGrid rows cols p) ∧
    List.Pairwise (fun s t : ShipInstance => ∀ p ∈ s.coords, ∀ q ∈ t.coords,
      p ≠ q ∧ ¬ adjacent p q) (getShipInstances b) := by
  obtain ⟨PL, hrep, -, -⟩ := placeShips_rep fuel 0 b hok
  have hperm := extract_of_boardRep hrep
  constructor
  · intro inst hinst p hp
    have hmem := hperm.subset hinst
    rw [List.mem_map] at hmem
    obtain ⟨P, hP, rfl⟩ := hmem
    exact (hrep.good P hP).bounds p hp
  · have hmap : List.Pairwise (fun s t : ShipInstance => ∀ p ∈ s.coords,
        ∀ q ∈ t.coords, p ≠ q ∧ ¬ adjacent p q) (PL.map toInst) :=
      List.Pairwise.map toInst (fun P Q hsep => hsep) hrep.sep
    refine (List.Perm.pairwise_iff ?_ hperm).2 hmap
    intro s t h p hp q hq
    obtain ⟨h1, h2⟩ := h q hq p hp
    exact ⟨h1.symm, fun hadj => h2 (adjacent_symm hadj)⟩

/-- Witness for C3: the concrete placement of the C2 witness is in bounds
and trivially pairwise separated. -/
theorem placement_separation_witness :
    (∀ inst ∈ getShipInstances [[1, 1], [0, 0]], ∀ p ∈ inst.coords,
      inGrid 2 2 p) ∧
    List.Pairwise (fun s t : ShipInstance => ∀ p ∈ s.coords, ∀ q ∈ t.coords,
      p ≠ q ∧ ¬ adjacent p q) (getShipInstances [[1, 1], [0, 0]]) :=
  placement_separation 2 2 (fun i => if i = 1 then 1 else 0)
    ⟨fun _ => rowMajor 2 2, fun _ _ => 0⟩ 1 [[1, 1], [0, 0]] (by rfl)

end Battleships
